import Mathlib

/-!
Verification of the core of the `surface-water-network` repository
(`swn.py`, class `SurfaceWaterNetwork`).

The Python source is shallowly embedded as executable Lean functions:

* segment numbers are integers (`ℤ`, mirroring the pandas `Int64Index`);
* coordinates are exact rationals (`ℚ`); the planar distance comparisons of
  the source (`geom2.distance(end1_pt) < 1e-6`) are embedded as comparisons
  of squared distances against `(1e-6)^2`, which is equivalent for
  non-negative distances and keeps everything inside `ℚ`;
* the pandas column writes become updates of functions `ℤ → _`;
* code that can raise (`ZeroDivisionError`, `ValueError`, the unbound
  `numiter` after an empty loop) is embedded with `Option`, `none`
  standing for the raised exception;
* the native recursion `resurse_upstream` is embedded with explicit fuel
  (`ids.length` is always enough fuel on the acyclic networks the source
  terminates on).
-/

/-! ## Coordinates and planar distances (shapely geometry, 2-D) -/

/-- A 3-D coordinate `(x, y, z)`, as stored on a `LINESTRING Z`. -/
abbrev Coord : Type := ℚ × ℚ × ℚ

/-- `coord[0:2]`: the 2-D projection used by the source for planar tests. -/
def proj2 (c : Coord) : ℚ × ℚ := (c.1, c.2.1)

/-- Squared planar distance between two 2-D points. -/
def ptDistSq (p q : ℚ × ℚ) : ℚ := (p.1 - q.1) ^ 2 + (p.2 - q.2) ^ 2

/-- Squared distance from point `p` to the 2-D segment `a-b`
(the standard clamped-projection formula used by shapely's `distance`). -/
def segDistSq (p a b : ℚ × ℚ) : ℚ :=
  if a = b then ptDistSq p a
  else
    let l2 := ptDistSq a b
    let t := ((p.1 - a.1) * (b.1 - a.1) + (p.2 - a.2) * (b.2 - a.2)) / l2
    if t ≤ 0 then ptDistSq p a
    else if 1 ≤ t then ptDistSq p b
    else ptDistSq p (a.1 + t * (b.1 - a.1), a.2 + t * (b.2 - a.2))

/-- Squared distance from a 2-D point to a polyline (`geom2.distance(end1_pt)`,
squared).  A `LINESTRING` always has at least two coordinates; the `[]` and
singleton cases are defensive defaults. -/
def polyDistSq (p : ℚ × ℚ) : List (ℚ × ℚ) → ℚ
  | [] => 0
  | [a] => ptDistSq p a
  | a :: b :: rest => min (segDistSq p a b) (polyDistSq p (b :: rest))

/-- `(1e-6)^2`: the squared tolerance corresponding to the source's `1e-6`. -/
def tolSq : ℚ := 1 / 1000000000000

/-! ## ConnectivityResolver (lines 146-183 of `swn.py`)

For each segment the source scans candidate segments, collecting
`to_segnums` (downstream matches) plus warning/error diagnostics, then
resolves the single `to_segnum` value.  Diagnostics are embedded as
structured values instead of formatted log strings. -/

/-- Structured counterparts of the formatted diagnostic strings appended to
`self.warnings` / `self.errors` during the downstream-connectivity scan. -/
inductive ConnDiag : Type
  /-- "end of segment s matches start of segment c in 2D, but not in Z". -/
  | zMismatch (s c : ℤ)
  /-- "segment s connects to the middle of segment c". -/
  | midSegment (s c : ℤ)
  /-- "segment s has more than one downstream segments: cands". -/
  | multiDownstream (s : ℤ) (cands : List ℤ)
  deriving DecidableEq

/-- Accumulator of the candidate scan for one segment:
the `to_segnums` list plus diagnostics, all appended in scan order. -/
structure ScanAcc : Type where
  toSegnums : List ℤ
  errors : List ConnDiag
  warnings : List ConnDiag
  deriving DecidableEq

/-- One iteration of the inner candidate loop (lines 158-176): classify
candidate `cand` against the downstream end `end1` of segment `segnum1`. -/
def scanStep (segnum1 : ℤ) (end1 : Coord) (acc : ScanAcc) (cand : ℤ × List Coord) :
    ScanAcc :=
  if cand.1 = segnum1 then acc
  else
    let start2 : Coord := cand.2.headD (0, 0, 0)
    let end2 : Coord := cand.2.getLastD (0, 0, 0)
    if end1 = start2 then
      -- perfect 3D match
      { acc with toSegnums := acc.toSegnums ++ [cand.1] }
    else if proj2 end1 = proj2 start2 then
      -- 2D match with Z mismatch: match plus warning
      { acc with
          toSegnums := acc.toSegnums ++ [cand.1]
          warnings := acc.warnings ++ [ConnDiag.zMismatch segnum1 cand.1] }
    else if polyDistSq (proj2 end1) (cand.2.map proj2) < tolSq ∧
        tolSq < ptDistSq (proj2 end2) (proj2 end1) then
      -- connects to the middle of the candidate: error, not a match
      { acc with errors := acc.errors ++ [ConnDiag.midSegment segnum1 cand.1] }
    else acc

/-- The candidate loop for one segment `s1` with geometry `g1` against the
candidate collection `cands` (the source's `sub`, the full segment table in
the linear-scan fallback). -/
def scanCandidates (s1 : ℤ) (g1 : List Coord) (cands : List (ℤ × List Coord)) :
    ScanAcc :=
  cands.foldl (scanStep s1 (g1.getLastD (0, 0, 0))) ⟨[], [], []⟩

/-- Lines 177-183: after the scan, emit the more-than-one-downstream error if
needed and resolve the recorded `to_segnum` (`to_segnums[0]` when any match
was found, otherwise the initial `END_SEGNUM` value `e`). -/
def resolveToSegnum (e : ℤ) (s1 : ℤ) (acc : ScanAcc) : ℤ × List ConnDiag :=
  let errs :=
    if 1 < acc.toSegnums.length then
      acc.errors ++ [ConnDiag.multiDownstream s1 acc.toSegnums]
    else acc.errors
  match acc.toSegnums with
  | [] => (e, errs)
  | t :: _ => (t, errs)

/-! ## ElevationProfileAdjuster (lines 448-474 of `swn.py`)

The inner per-segment loop walks consecutive coordinates from the upstream
end.  The only geometric quantity it uses is the planar run
`dx = sqrt((x0-x1)**2 + (y0-y1)**2)` of each consecutive pair, so a segment
is embedded as its upstream elevation `z0` plus the list of `(dx, z)` steps
(planar run from the previous coordinate, stored elevation).  `dx = 0`
(consecutive coordinates identical in 2-D) makes `dz / dx` raise
`ZeroDivisionError` in Python, embedded as `none`. -/

/-- The per-segment elevation scan: returns the adjusted elevations of the
coordinates after the first one, together with the `modified` counter, or
`none` when a zero planar run is hit (Python `ZeroDivisionError`). -/
def adjustZ (ms : ℚ) : ℚ → List (ℚ × ℚ) → Option (List ℚ × ℕ)
  | _, [] => some ([], 0)
  | z0, (dx, z1) :: rest =>
    if dx = 0 then none
    else
      if (z0 - z1) / dx < ms then
        match adjustZ ms (z0 - dx * ms) rest with
        | none => none
        | some (zs, m) => some ((z0 - dx * ms) :: zs, m + 1)
      else
        match adjustZ ms z1 rest with
        | none => none
        | some (zs, m) => some (z1 :: zs, m)

/-- Compliance of the original profile: every consecutive pair already has
slope at least `ms` (using the original, unadjusted elevations). -/
def compliant (ms : ℚ) : ℚ → List (ℚ × ℚ) → Prop
  | _, [] => True
  | z0, (dx, z1) :: rest => ms ≤ (z0 - z1) / dx ∧ compliant ms z1 rest

instance (ms z0 : ℚ) (steps : List (ℚ × ℚ)) : Decidable (compliant ms z0 steps) := by
  induction steps generalizing z0 with
  | nil => exact isTrue trivial
  | cons p rest ih =>
    obtain ⟨dx, z1⟩ := p
    exact @instDecidableAnd _ _ _ (ih z1)

/-! ### Lemmas on the elevation scan -/

/-- A compliant profile is returned unchanged with `modified = 0`. -/
theorem adjustZ_of_compliant (ms : ℚ) :
    ∀ (steps : List (ℚ × ℚ)) (z0 : ℚ), (∀ p ∈ steps, 0 < p.1) →
      compliant ms z0 steps →
      adjustZ ms z0 steps = some (steps.map Prod.snd, 0) := by
  intro steps
  induction steps with
  | nil => intro z0 _ _; rfl
  | cons p rest ih =>
    intro z0 hdx hc
    obtain ⟨dx, z1⟩ := p
    obtain ⟨hslope, hcrest⟩ := hc
    have hdx0 : (0 : ℚ) < dx := hdx (dx, z1) (List.mem_cons_self _ _)
    have hne : ¬ dx = 0 := ne_of_gt hdx0
    have hnot : ¬ (z0 - z1) / dx < ms := not_lt.mpr hslope
    simp only [adjustZ, hne, if_false, hnot,
      ih z1 (fun p hp => hdx p (List.mem_cons_of_mem _ hp)) hcrest]
    rfl

/-- The scan fails (Python `ZeroDivisionError`) iff some step has a zero
planar run, i.e. two consecutive coordinates coincide in 2-D. -/
theorem adjustZ_none_iff (ms : ℚ) :
    ∀ (steps : List (ℚ × ℚ)) (z0 : ℚ),
      adjustZ ms z0 steps = none ↔ ∃ p ∈ steps, p.1 = 0 := by
  intro steps
  induction steps with
  | nil =>
    intro z0
    simp [adjustZ]
  | cons p rest ih =>
    intro z0
    obtain ⟨dx, z1⟩ := p
    by_cases hdx : dx = 0
    · subst hdx
      simp [adjustZ]
    · constructor
      · intro h
        simp only [adjustZ, hdx, if_false] at h
        by_cases hs : (z0 - z1) / dx < ms
        · simp only [hs, if_true] at h
          rcases hr : adjustZ ms (z0 - dx * ms) rest with _ | zr
          · rcases (ih (z0 - dx * ms)).1 hr with ⟨q, hq, hq0⟩
            exact ⟨q, List.mem_cons_of_mem _ hq, hq0⟩
          · rw [hr] at h; cases h
        · simp only [hs, if_false] at h
          rcases hr : adjustZ ms z1 rest with _ | zr
          · rcases (ih z1).1 hr with ⟨q, hq, hq0⟩
            exact ⟨q, List.mem_cons_of_mem _ hq, hq0⟩
          · rw [hr] at h; cases h
      · rintro ⟨q, hq, hq0⟩
        rcases List.mem_cons.mp hq with hq | hq
        · rw [hq] at hq0
          exact absurd hq0 hdx
        · simp only [adjustZ, hdx, if_false]
          by_cases hs : (z0 - z1) / dx < ms
          · simp only [hs, if_true]
            rw [(ih (z0 - dx * ms)).2 ⟨q, hq, hq0⟩]
          · simp only [hs, if_false]
            rw [(ih z1).2 ⟨q, hq, hq0⟩]

/-- Pointwise characterisation of a successful scan: each output elevation is
the stored one when the local slope (relative to the already-adjusted
upstream point) meets `ms`, and exactly `z_up - dx * ms` otherwise. -/
theorem adjustZ_spec (ms : ℚ) :
    ∀ (steps : List (ℚ × ℚ)) (z0 : ℚ) (zs : List ℚ) (m : ℕ),
      adjustZ ms z0 steps = some (zs, m) →
      zs.length = steps.length ∧
      ∀ i, i < steps.length →
        ((((if i = 0 then z0 else zs.getD (i - 1) 0) - (steps.getD i (0, 0)).2) /
              (steps.getD i (0, 0)).1 < ms →
            zs.getD i 0 =
              (if i = 0 then z0 else zs.getD (i - 1) 0) -
                (steps.getD i (0, 0)).1 * ms) ∧
          (¬ ((if i = 0 then z0 else zs.getD (i - 1) 0) - (steps.getD i (0, 0)).2) /
              (steps.getD i (0, 0)).1 < ms →
            zs.getD i 0 = (steps.getD i (0, 0)).2)) := by
  intro steps
  induction steps with
  | nil =>
    intro z0 zs m h
    simp only [adjustZ, Option.some.injEq, Prod.mk.injEq] at h
    obtain ⟨h1, _⟩ := h
    subst h1
    exact ⟨rfl, fun i hi => absurd hi (Nat.not_lt_zero i)⟩
  | cons p rest ih =>
    intro z0 zs m h
    obtain ⟨dx, z1⟩ := p
    by_cases hdx : dx = 0
    · simp [adjustZ, hdx] at h
    · simp only [adjustZ, hdx, if_false] at h
      by_cases hs : (z0 - z1) / dx < ms
      · simp only [hs, if_true] at h
        rcases hr : adjustZ ms (z0 - dx * ms) rest with _ | zr
        · rw [hr] at h; cases h
        · rw [hr] at h
          obtain ⟨zs', m'⟩ := zr
          simp only [Option.some.injEq, Prod.mk.injEq] at h
          obtain ⟨hzs, _⟩ := h
          subst hzs
          obtain ⟨hlen, hspec⟩ := ih (z0 - dx * ms) zs' m' hr
          refine ⟨by simp [hlen], ?_⟩
          intro i hi
          match i with
          | 0 =>
            refine ⟨fun _ => by simp, fun hns => absurd hs (by simpa using hns)⟩
          | Nat.succ j =>
            have hj : j < rest.length := by
              simpa using Nat.lt_of_succ_lt_succ hi
            have := hspec j hj
            match j with
            | 0 => simpa using this
            | Nat.succ k => simpa using this
      · simp only [hs, if_false] at h
        rcases hr : adjustZ ms z1 rest with _ | zr
        · rw [hr] at h; cases h
        · rw [hr] at h
          obtain ⟨zs', m'⟩ := zr
          simp only [Option.some.injEq, Prod.mk.injEq] at h
          obtain ⟨hzs, _⟩ := h
          subst hzs
          obtain ⟨hlen, hspec⟩ := ih z1 zs' m' hr
          refine ⟨by simp [hlen], ?_⟩
          intro i hi
          match i with
          | 0 =>
            refine ⟨fun hlt => absurd hlt (by simpa using hs), fun _ => by simp⟩
          | Nat.succ j =>
            have hj : j < rest.length := by
              simpa using Nat.lt_of_succ_lt_succ hi
            have := hspec j hj
            match j with
            | 0 => simpa using this
            | Nat.succ k => simpa using this

/-! ## NetworkGraph basics

After the connectivity pass the network is the segment index (`ids`, the
ordered pandas index, assumed duplicate-free), the downstream map
`toSeg : ℤ → ℤ` (the `to_segnum` column), the planar segment lengths
`glen : ℤ → ℚ` (`geometry.length`) and the sentinel `e = END_SEGNUM`. -/

/-- `upstream_segnums[d]`: the index entries whose `to_segnum` equals `d`
(`self.index[self.segments['to_segnum'] == segnum]`), in index order. -/
def upsOf (ids : List ℤ) (toSeg : ℤ → ℤ) (d : ℤ) : List ℤ :=
  ids.filter fun s => toSeg s = d

/-- The outlets: `self.index[self.segments['to_segnum'] == END_SEGNUM]`. -/
def outletsOf (ids : List ℤ) (toSeg : ℤ → ℤ) (e : ℤ) : List ℤ :=
  ids.filter fun s => toSeg s = e

/-- The headwater index: `self.index[~self.index.isin(to_segnum column)]`. -/
def headwaterOf (ids : List ℤ) (toSeg : ℤ → ℤ) : List ℤ :=
  ids.filter fun s => ids.all fun t => ! decide (toSeg t = s)

/-- `s` reaches the sentinel `e` by following `toSeg` within `f` steps.
On an acyclic network every segment reaches `e`; this bounded form keeps the
property decidable. -/
def reachesEnd (toSeg : ℤ → ℤ) (e : ℤ) : ℕ → ℤ → Bool
  | 0, s => s = e
  | f + 1, s => s = e || reachesEnd toSeg e f (toSeg s)

/-- Number of `toSeg`-steps from `s` until the sentinel `e`, computed with fuel
(saturating when the fuel runs out).  On segments that reach `e` this is the
hop count down past the outlet, i.e. the value `num_to_outlet` takes. -/
def distToEnd (toSeg : ℤ → ℤ) (e : ℤ) : ℕ → ℤ → ℕ
  | 0, _ => 0
  | f + 1, s => if s = e then 0 else distToEnd toSeg e f (toSeg s) + 1

/-! ## Sorting helper

`sort_values` of pandas, embedded as a plain insertion sort by a boolean
key-comparison.  Only the fact that the result is a permutation (and, for
`accumulate_values`, that it is sorted) matters for the source's behaviour. -/

/-- Insert `a` into `l` keeping it sorted by `le`. -/
def insertBy {α : Type} (le : α → α → Bool) (a : α) : List α → List α
  | [] => [a]
  | b :: l => if le a b then a :: b :: l else b :: insertBy le a l

/-- Insertion sort by the boolean comparison `le`. -/
def sortBy {α : Type} (le : α → α → Bool) : List α → List α
  | [] => []
  | a :: l => insertBy le a (sortBy le l)

/-- Descending `sort_values(['num_to_outlet', 'length_to_outlet'],
ascending=False)` comparison: `a` comes before `b` when its key pair is
lexicographically at least `b`'s. -/
def leDescKey (num : ℤ → ℕ) (len : ℤ → ℚ) (a b : ℤ) : Bool :=
  decide (num b < num a ∨ (num a = num b ∧ len b ≤ len a))

/-! ## DownstreamTraversal (lines 185-204 of `swn.py`)

`resurse_upstream` stamps `cat_group`, `num_to_outlet` and
`length_to_outlet` by native recursion from each outlet;  the embedding
mirrors the recursion with explicit fuel. -/

/-- The three columns written by the downstream-then-upstream traversal. -/
structure TravState : Type where
  cat : ℤ → ℤ
  num : ℤ → ℕ
  len : ℤ → ℚ

/-- `resurse_upstream(segnum, cat_group, num, length)`: write the three
fields of `segnum`, then recurse into every upstream segment, in index
order.  `fuel` bounds the recursion depth (the Python call stack). -/
def resurse (ids : List ℤ) (toSeg : ℤ → ℤ) (glen : ℤ → ℚ) :
    ℕ → ℤ → ℤ → ℕ → ℚ → TravState → TravState
  | 0, _, _, _, _, t => t
  | f + 1, segnum, catg, num, length, t =>
    let num' := num + 1
    let length' := length + glen segnum
    let t1 : TravState :=
      { cat := fun x => if x = segnum then catg else t.cat x
        num := fun x => if x = segnum then num' else t.num x
        len := fun x => if x = segnum then length' else t.len x }
    (upsOf ids toSeg segnum).foldl
      (fun acc u => resurse ids toSeg glen f u catg num' length' acc) t1

/-- Lines 188-204: initialise the three columns (`cat_group = END_SEGNUM`,
`num_to_outlet = 0`, `length_to_outlet = 0.0`) and run `resurse_upstream`
from every outlet. -/
def traversal (ids : List ℤ) (toSeg : ℤ → ℤ) (glen : ℤ → ℚ) (e : ℤ) : TravState :=
  (outletsOf ids toSeg e).foldl
    (fun t o => resurse ids toSeg glen ids.length o o 0 0 t)
    { cat := fun _ => e, num := fun _ => 0, len := fun _ => 0 }

/-- Call-depth instrumentation of `resurse_upstream`'s recursion: the
maximal nesting of recursive calls performed when started at `segnum`
(1 for the call itself plus the deepest upstream sub-call).  This measures
the native call-stack consumption of the Python function. -/
def resurseDepth (ids : List ℤ) (toSeg : ℤ → ℤ) : ℕ → ℤ → ℕ
  | 0, _ => 0
  | f + 1, segnum =>
    1 + ((upsOf ids toSeg segnum).map (resurseDepth ids toSeg f)).foldr max 0

/-! ## TopologicalSequencer (lines 280-325 of `swn.py`) -/

/-- The state of the sequencing loop: the `sequence` and `stream_order`
columns, the `completed` set and the running `sequence` counter. -/
structure OrdState : Type where
  seq : ℤ → ℕ
  ord : ℤ → ℕ
  completed : List ℤ
  counter : ℕ

/-- Assign consecutive sequence numbers `c+1, c+2, ...` onto the listed
segments (the source's `np.arange(len(furthest_upstream)) + 1` Series
assignment, for headwaters sorted furthest-first). -/
def initAssign : List ℤ → ℕ → (ℤ → ℕ) → (ℤ → ℕ) × ℕ
  | [], c, f => (f, c)
  | h :: rest, c, f =>
    initAssign rest (c + 1) (fun t => if t = h then c + 1 else f t)

/-- Lines 313-321: the Strahler update for a newly sequenced segment from
the stream orders of its upstream segments:  `max_ord + 1` when the maximum
is attained more than once, else `max_ord`. -/
def strahlerStep (ords : List ℕ) : ℕ :=
  let maxOrd := ords.foldr max 0
  if 1 < ords.count maxOrd then maxOrd + 1 else maxOrd

/-- Lines 308-322, one element of the inner loop: if all upstream segments
of `s` are completed, assign the next sequence number and the Strahler
stream order and mark `s` completed; otherwise leave the state unchanged. -/
def admitStep (ids : List ℤ) (toSeg : ℤ → ℤ) (st : OrdState) (s : ℤ) : OrdState :=
  if ((upsOf ids toSeg s).all fun u => decide (u ∈ st.completed)) then
    { seq := fun t => if t = s then st.counter + 1 else st.seq t
      ord := fun t =>
        if t = s then strahlerStep ((upsOf ids toSeg s).map st.ord) else st.ord t
      completed := s :: st.completed
      counter := st.counter + 1 }
  else st

/-- Lines 301-304: the segments directly downstream of a completed segment
that are not themselves completed (and not `END_SEGNUM`: the sentinel is
not in `ids`).  Taken in index order before sorting. -/
def frontierOf (ids : List ℤ) (toSeg : ℤ → ℤ) (st : OrdState) : List ℤ :=
  ids.filter fun d =>
    (st.completed.any fun c => toSeg c = d) && ! decide (d ∈ st.completed)

/-- One `numiter` iteration of the main loop: sort the frontierOf
furthest-first and fold the admission step over it. -/
def seqIter (ids : List ℤ) (toSeg : ℤ → ℤ) (num : ℤ → ℕ) (len : ℤ → ℚ)
    (st : OrdState) : OrdState :=
  (sortBy (leDescKey num len) (frontierOf ids toSeg st)).foldl (admitStep ids toSeg) st

/-- The bounded main loop (`for numiter in range(1, max_num_to_outlet + 1)`)
with its early break once every `sequence` value is positive. -/
def seqLoop (ids : List ℤ) (toSeg : ℤ → ℤ) (num : ℤ → ℕ) (len : ℤ → ℚ) :
    ℕ → OrdState → OrdState
  | 0, st => st
  | f + 1, st =>
    let st' := seqIter ids toSeg num len st
    if ids.all fun s => 1 ≤ st'.seq s then st'
    else seqLoop ids toSeg num len f st'

/-- Lines 185-204 and 280-325 of the constructor: downstream traversal,
headwater seeding and the topological sequencing loop.  The result carries
the traversal columns, the ordering columns and the diagnostics appended by
these passes (the source appends none here: `self.errors` is only written
by the connectivity passes).  `none` embeds the two ways this part of the
constructor can raise: `int(sequence.max())` on an empty headwater set
(`ValueError: cannot convert float NaN into integer`) and the read of
`numiter` after a loop that never ran (`NameError`, when
`num_to_outlet.max()` is zero). -/
def buildOrdering (ids : List ℤ) (toSeg : ℤ → ℤ) (glen : ℤ → ℚ) (e : ℤ) :
    Option (TravState × OrdState × List ConnDiag) :=
  let trav := traversal ids toSeg glen e
  let hws := headwaterOf ids toSeg
  if hws = [] then none
  else
    let hwsSorted := sortBy (leDescKey trav.num trav.len) hws
    let init := initAssign hwsSorted 0 (fun _ => 0)
    let st0 : OrdState :=
      { seq := init.1
        ord := fun s => if s ∈ hws then 1 else 0
        completed := hwsSorted
        counter := init.2 }
    let maxNum := (ids.map trav.num).foldr max 0
    if maxNum = 0 then none
    else some (trav, seqLoop ids toSeg trav.num trav.len maxNum st0, [])

/-! ## AccumulationEngine (lines 391-422 of `swn.py`) -/

/-- The accumulation fold: for each segment in ascending `sequence` order,
add the accumulated values of its immediate upstream segments
(`accum[segnum] += accum[upstream_segnums].sum()`). -/
def accumStep (ids : List ℤ) (toSeg : ℤ → ℤ) (acc : ℤ → ℚ) (s : ℤ) : ℤ → ℚ :=
  if upsOf ids toSeg s ≠ [] then
    fun t => if t = s then acc s + ((upsOf ids toSeg s).map acc).sum else acc t
  else acc

/-- The accumulation fold body: visit the segments in ascending `sequence`
order, adding each segment's upstream accumulated values. -/
def accumBody (ids : List ℤ) (toSeg : ℤ → ℤ) (seqOf : ℤ → ℕ) (vals : ℤ → ℚ) :
    ℤ → ℚ :=
  (sortBy (fun a b => decide (seqOf a ≤ seqOf b)) ids).foldl
    (accumStep ids toSeg) vals

/-- `accumulate_values(values)`: a pandas `Series` is embedded as its index
list `vidx` plus its value function `vals`.  The source raises
(`ValueError('index is different')`) when the lengths differ or some
positional pair of index entries differs; otherwise it returns a new Series
(same index) accumulated in ascending `sequence` order. -/
def accumulate_values (ids : List ℤ) (toSeg : ℤ → ℤ) (seqOf : ℤ → ℕ)
    (vidx : List ℤ) (vals : ℤ → ℚ) : Option (List ℤ × (ℤ → ℚ)) :=
  if vidx.length ≠ ids.length then none
  else if ¬ ((vidx.zip ids).all fun p => p.1 = p.2) then none
  else some (vidx, accumBody ids toSeg seqOf vals)

/-! ## Supporting lemmas: membership, sorting, maxima -/

theorem mem_upsOf {ids : List ℤ} {toSeg : ℤ → ℤ} {u d : ℤ} :
    u ∈ upsOf ids toSeg d ↔ u ∈ ids ∧ toSeg u = d := by
  simp [upsOf]

theorem upsOf_eq_nil_iff {ids : List ℤ} {toSeg : ℤ → ℤ} {d : ℤ} :
    upsOf ids toSeg d = [] ↔ ∀ u ∈ ids, toSeg u ≠ d := by
  simp [upsOf, List.filter_eq_nil_iff]

theorem mem_headwaterOf {ids : List ℤ} {toSeg : ℤ → ℤ} {s : ℤ} :
    s ∈ headwaterOf ids toSeg ↔ s ∈ ids ∧ upsOf ids toSeg s = [] := by
  simp [headwaterOf, upsOf_eq_nil_iff, List.all_eq_true]

theorem mem_outletsOf {ids : List ℤ} {toSeg : ℤ → ℤ} {e s : ℤ} :
    s ∈ outletsOf ids toSeg e ↔ s ∈ ids ∧ toSeg s = e := by
  simp [outletsOf]

theorem insertBy_perm {α : Type} (le : α → α → Bool) (a : α) :
    ∀ l : List α, (insertBy le a l).Perm (a :: l) := by
  intro l
  induction l with
  | nil => exact List.Perm.refl _
  | cons b l ih =>
    by_cases h : le a b
    · simp [insertBy, h]
    · simp only [insertBy, h, if_false]
      exact (ih.cons b).trans (List.Perm.swap a b l)

theorem sortBy_perm {α : Type} (le : α → α → Bool) :
    ∀ l : List α, (sortBy le l).Perm l := by
  intro l
  induction l with
  | nil => exact List.Perm.refl _
  | cons a l ih => exact (insertBy_perm le a (sortBy le l)).trans (ih.cons a)

theorem pairwise_insertBy {α : Type} {le : α → α → Bool}
    (htot : ∀ a b, le a b = true ∨ le b a = true)
    (htrans : ∀ a b c, le a b = true → le b c = true → le a c = true) (a : α) :
    ∀ l : List α, l.Pairwise (fun x y => le x y = true) →
      (insertBy le a l).Pairwise (fun x y => le x y = true) := by
  intro l
  induction l with
  | nil => intro _; simp [insertBy]
  | cons b l ih =>
    intro h
    rcases List.pairwise_cons.mp h with ⟨hb, hl⟩
    by_cases hab : le a b
    · simp only [insertBy, hab, if_true]
      refine List.pairwise_cons.mpr ⟨?_, h⟩
      intro x hx
      rcases List.mem_cons.mp hx with hx | hx
      · rw [hx]; exact hab
      · exact htrans a b x hab (hb x hx)
    · simp only [insertBy, hab, if_false]
      have hba : le b a = true := (htot a b).resolve_left hab
      refine List.pairwise_cons.mpr ⟨?_, ih hl⟩
      intro x hx
      rcases List.mem_cons.mp ((insertBy_perm le a l).mem_iff.mp hx) with hx | hx
      · rw [hx]; exact hba
      · exact hb x hx

theorem sortBy_pairwise {α : Type} {le : α → α → Bool}
    (htot : ∀ a b, le a b = true ∨ le b a = true)
    (htrans : ∀ a b c, le a b = true → le b c = true → le a c = true) :
    ∀ l : List α, (sortBy le l).Pairwise (fun x y => le x y = true) := by
  intro l
  induction l with
  | nil => simp [sortBy]
  | cons a l ih => exact pairwise_insertBy htot htrans a _ ih

theorem le_foldr_max : ∀ (l : List ℕ) (x : ℕ), x ∈ l → x ≤ l.foldr max 0 := by
  intro l
  induction l with
  | nil => intro x hx; cases hx
  | cons a l ih =>
    intro x hx
    rcases List.mem_cons.mp hx with hx | hx
    · rw [hx]; exact le_max_left _ _
    · exact le_trans (ih x hx) (le_max_right _ _)

theorem exists_max_image (f : ℤ → ℕ) :
    ∀ l : List ℤ, l ≠ [] → ∃ x ∈ l, ∀ y ∈ l, f y ≤ f x := by
  intro l
  induction l with
  | nil => intro h; exact absurd rfl h
  | cons a l ih =>
    intro _
    cases l with
    | nil =>
      refine ⟨a, List.mem_cons_self _ _, ?_⟩
      intro y hy
      rcases List.mem_cons.mp hy with hy | hy
      · rw [hy]
      · cases hy
    | cons b l' =>
      rcases ih (by simp) with ⟨x, hx, hmax⟩
      by_cases hax : f a ≤ f x
      · refine ⟨x, List.mem_cons_of_mem _ hx, ?_⟩
        intro y hy
        rcases List.mem_cons.mp hy with hy | hy
        · rw [hy]; exact hax
        · exact hmax y hy
      · refine ⟨a, List.mem_cons_self _ _, ?_⟩
        intro y hy
        rcases List.mem_cons.mp hy with hy | hy
        · rw [hy]
        · exact le_trans (hmax y hy) (le_of_not_le hax)

/-! ## Lemmas on `reachesEnd` and `distToEnd` -/

theorem reachesEnd_succ {toSeg : ℤ → ℤ} {e : ℤ} :
    ∀ {f : ℕ} {s : ℤ}, reachesEnd toSeg e f s = true →
      reachesEnd toSeg e (f + 1) s = true := by
  intro f
  induction f with
  | zero =>
    intro s h
    have hs : s = e := by simpa [reachesEnd] using h
    show (decide (s = e) || reachesEnd toSeg e 0 (toSeg s)) = true
    rw [hs]
    simp
  | succ f ih =>
    intro s h
    have h' : (decide (s = e) || reachesEnd toSeg e f (toSeg s)) = true := h
    show (decide (s = e) || reachesEnd toSeg e (f + 1) (toSeg s)) = true
    rcases Bool.or_eq_true_iff.mp h' with h2 | h2
    · exact Bool.or_eq_true_iff.mpr (Or.inl h2)
    · exact Bool.or_eq_true_iff.mpr (Or.inr (ih h2))

theorem reachesEnd_mono {toSeg : ℤ → ℤ} {e : ℤ} {f g : ℕ} (hfg : f ≤ g) {s : ℤ}
    (h : reachesEnd toSeg e f s = true) : reachesEnd toSeg e g s = true := by
  induction g with
  | zero =>
    have : f = 0 := Nat.le_zero.mp hfg
    subst this; exact h
  | succ g ih =>
    rcases Nat.lt_or_ge f (g + 1) with hf | hf
    · exact reachesEnd_succ (ih (Nat.lt_succ_iff.mp hf))
    · have : f = g + 1 := le_antisymm hfg hf
      subst this; exact h

theorem distToEnd_self (toSeg : ℤ → ℤ) (e : ℤ) :
    ∀ f : ℕ, distToEnd toSeg e f e = 0 := by
  intro f
  cases f with
  | zero => rfl
  | succ f => simp [distToEnd]

theorem distToEnd_succ_of_ne {toSeg : ℤ → ℤ} {e s : ℤ} (h : s ≠ e) (f : ℕ) :
    distToEnd toSeg e (f + 1) s = distToEnd toSeg e f (toSeg s) + 1 := by
  simp [distToEnd, h]

theorem distToEnd_stable {toSeg : ℤ → ℤ} {e : ℤ} :
    ∀ {f : ℕ} {s : ℤ}, reachesEnd toSeg e f s = true →
      distToEnd toSeg e (f + 1) s = distToEnd toSeg e f s := by
  intro f
  induction f with
  | zero =>
    intro s h
    simp only [reachesEnd, decide_eq_true_eq] at h
    subst h
    simp [distToEnd]
  | succ f ih =>
    intro s h
    by_cases hs : s = e
    · subst hs; simp [distToEnd_self]
    · have h' : (decide (s = e) || reachesEnd toSeg e f (toSeg s)) = true := h
      rcases Bool.or_eq_true_iff.mp h' with h2 | h2
      · exact absurd (of_decide_eq_true h2) hs
      · rw [distToEnd_succ_of_ne hs (f + 1), distToEnd_succ_of_ne hs f, ih h2]

theorem distToEnd_stable_of_le {toSeg : ℤ → ℤ} {e : ℤ} {f g : ℕ} (hfg : f ≤ g) {s : ℤ}
    (h : reachesEnd toSeg e f s = true) :
    distToEnd toSeg e g s = distToEnd toSeg e f s := by
  induction g with
  | zero => rw [Nat.le_zero.mp hfg]
  | succ g ih =>
    rcases Nat.lt_or_ge f (g + 1) with hf | hf
    · have hfg2 : f ≤ g := Nat.lt_succ_iff.mp hf
      rw [distToEnd_stable (reachesEnd_mono hfg2 h), ih hfg2]
    · rw [le_antisymm hfg hf]

theorem distToEnd_le (toSeg : ℤ → ℤ) (e : ℤ) :
    ∀ (f : ℕ) (s : ℤ), distToEnd toSeg e f s ≤ f := by
  intro f
  induction f with
  | zero => intro s; exact Nat.le_refl 0
  | succ f ih =>
    intro s
    by_cases hs : s = e
    · rw [hs, distToEnd_self]; exact Nat.zero_le _
    · rw [distToEnd_succ_of_ne hs]
      exact Nat.succ_le_succ (ih (toSeg s))

theorem reachesEnd_iterate_end {toSeg : ℤ → ℤ} {e : ℤ} :
    ∀ (f : ℕ) (s : ℤ), reachesEnd toSeg e f s = true →
      toSeg^[distToEnd toSeg e f s] s = e := by
  intro f
  induction f with
  | zero =>
    intro s h
    have hs : s = e := by simpa [reachesEnd] using h
    simpa [distToEnd] using hs
  | succ f ih =>
    intro s h
    by_cases hs : s = e
    · simp [hs, distToEnd_self]
    · have h2 : (decide (s = e) || reachesEnd toSeg e f (toSeg s)) = true := h
      have h3 := (Bool.or_eq_true_iff.mp h2).resolve_left
        (fun hd => hs (of_decide_eq_true hd))
      rw [distToEnd_succ_of_ne hs, Function.iterate_succ_apply]
      exact ih (toSeg s) h3

theorem iterate_ne_end {toSeg : ℤ → ℤ} {e : ℤ} :
    ∀ (f : ℕ) (s : ℤ), reachesEnd toSeg e f s = true →
      ∀ j, j < distToEnd toSeg e f s → toSeg^[j] s ≠ e := by
  intro f
  induction f with
  | zero =>
    intro s _ j hj
    simp [distToEnd] at hj
  | succ f ih =>
    intro s h j hj
    by_cases hs : s = e
    · rw [hs, distToEnd_self] at hj
      exact absurd hj (Nat.not_lt_zero j)
    · rw [distToEnd_succ_of_ne hs] at hj
      have h2 : (decide (s = e) || reachesEnd toSeg e f (toSeg s)) = true := h
      have h3 := (Bool.or_eq_true_iff.mp h2).resolve_left
        (fun hd => hs (of_decide_eq_true hd))
      cases j with
      | zero => simpa using hs
      | succ j =>
        rw [Function.iterate_succ_apply]
        exact ih (toSeg s) h3 j (Nat.lt_of_succ_lt_succ hj)

/-! ## Network well-formedness

The premise of the ordering claims: the connectivity pass produced a clean
topology.  `closed` says every `to_segnum` is a segment or the sentinel
(spec's "every segment has exactly one to_segnum"), `reach` says every
segment's downstream chain reaches the sentinel within `ids.length` steps,
which is exactly acyclicity for a single-valued downstream map. -/

structure NetOK (ids : List ℤ) (toSeg : ℤ → ℤ) (e : ℤ) : Prop where
  nodup : ids.Nodup
  nonempty : ids ≠ []
  endNotMem : e ∉ ids
  closed : ∀ s ∈ ids, toSeg s ∈ ids ∨ toSeg s = e
  reach : ∀ s ∈ ids, reachesEnd toSeg e ids.length s = true

/-- Hop count from `s` down to the sentinel, with the canonical fuel. -/
abbrev distN (ids : List ℤ) (toSeg : ℤ → ℤ) (e : ℤ) (s : ℤ) : ℕ :=
  distToEnd toSeg e ids.length s

/-- The largest hop count over the network. -/
abbrev maxDist (ids : List ℤ) (toSeg : ℤ → ℤ) (e : ℤ) : ℕ :=
  (ids.map (distN ids toSeg e)).foldr max 0

theorem NetOK.length_pos {ids : List ℤ} {toSeg : ℤ → ℤ} {e : ℤ}
    (h : NetOK ids toSeg e) : 0 < ids.length :=
  List.length_pos.mpr h.nonempty

theorem NetOK.ne_end {ids : List ℤ} {toSeg : ℤ → ℤ} {e : ℤ}
    (h : NetOK ids toSeg e) {s : ℤ} (hs : s ∈ ids) : s ≠ e :=
  fun he => h.endNotMem (he ▸ hs)

theorem NetOK.dist_pos {ids : List ℤ} {toSeg : ℤ → ℤ} {e : ℤ}
    (h : NetOK ids toSeg e) {s : ℤ} (hs : s ∈ ids) : 1 ≤ distN ids toSeg e s := by
  obtain ⟨n, hn⟩ := Nat.exists_eq_succ_of_ne_zero (Nat.pos_iff_ne_zero.mp h.length_pos)
  unfold distN
  rw [hn, distToEnd_succ_of_ne (h.ne_end hs)]
  exact Nat.le_add_left 1 _

theorem NetOK.dist_step {ids : List ℤ} {toSeg : ℤ → ℤ} {e : ℤ}
    (h : NetOK ids toSeg e) {u s : ℤ} (hu : u ∈ ids) (hus : toSeg u = s)
    (hs : s ∈ ids) : distN ids toSeg e u = distN ids toSeg e s + 1 := by
  obtain ⟨n, hn⟩ := Nat.exists_eq_succ_of_ne_zero (Nat.pos_iff_ne_zero.mp h.length_pos)
  have hru : reachesEnd toSeg e (n + 1) u = true := by
    have := h.reach u hu
    rwa [hn] at this
  have hrs : reachesEnd toSeg e n s = true := by
    have h2 : (decide (u = e) || reachesEnd toSeg e n (toSeg u)) = true := hru
    have h3 := (Bool.or_eq_true_iff.mp h2).resolve_left
      (fun hd => h.ne_end hu (of_decide_eq_true hd))
    rwa [hus] at h3
  unfold distN
  rw [hn, distToEnd_succ_of_ne (h.ne_end hu), hus, distToEnd_stable hrs]

theorem NetOK.dist_outlet {ids : List ℤ} {toSeg : ℤ → ℤ} {e : ℤ}
    (h : NetOK ids toSeg e) {o : ℤ} (ho : o ∈ ids) (hoe : toSeg o = e) :
    distN ids toSeg e o = 1 := by
  obtain ⟨n, hn⟩ := Nat.exists_eq_succ_of_ne_zero (Nat.pos_iff_ne_zero.mp h.length_pos)
  unfold distN
  rw [hn, distToEnd_succ_of_ne (h.ne_end ho), hoe, distToEnd_self]

theorem NetOK.dist_le_maxDist {ids : List ℤ} {toSeg : ℤ → ℤ} {e : ℤ}
    (_ : NetOK ids toSeg e) {s : ℤ} (hs : s ∈ ids) :
    distN ids toSeg e s ≤ maxDist ids toSeg e :=
  le_foldr_max _ _ (List.mem_map_of_mem _ hs)

theorem NetOK.maxDist_pos {ids : List ℤ} {toSeg : ℤ → ℤ} {e : ℤ}
    (h : NetOK ids toSeg e) : 1 ≤ maxDist ids toSeg e := by
  obtain ⟨s, hs⟩ := List.exists_mem_of_ne_nil ids h.nonempty
  exact le_trans (h.dist_pos hs) (h.dist_le_maxDist hs)

theorem NetOK.iterate_mem {ids : List ℤ} {toSeg : ℤ → ℤ} {e : ℤ}
    (h : NetOK ids toSeg e) {s : ℤ} (hs : s ∈ ids) :
    ∀ j, j < distN ids toSeg e s → toSeg^[j] s ∈ ids := by
  intro j
  induction j with
  | zero => intro _; simpa using hs
  | succ j ih =>
    intro hj
    have hj2 : j < distN ids toSeg e s := Nat.lt_of_succ_lt hj
    have hmem : toSeg^[j] s ∈ ids := ih hj2
    rcases h.closed _ hmem with hc | hc
    · rw [Function.iterate_succ_apply']
      exact hc
    · exfalso
      have hne : toSeg^[j + 1] s ≠ e :=
        iterate_ne_end ids.length s (h.reach s hs) (j + 1) hj
      rw [Function.iterate_succ_apply'] at hne
      exact hne hc

theorem NetOK.exists_outlet_path {ids : List ℤ} {toSeg : ℤ → ℤ} {e : ℤ}
    (h : NetOK ids toSeg e) {x : ℤ} (hx : x ∈ ids) :
    ∃ o k, o ∈ ids ∧ toSeg o = e ∧ toSeg^[k] x = o ∧ k < ids.length ∧
      (∀ j, j ≤ k → toSeg^[j] x ∈ ids) := by
  have hm1 : 1 ≤ distN ids toSeg e x := h.dist_pos hx
  have hmN : distN ids toSeg e x ≤ ids.length := distToEnd_le toSeg e ids.length x
  refine ⟨toSeg^[distN ids toSeg e x - 1] x, distN ids toSeg e x - 1,
    h.iterate_mem hx _ (by omega), ?_, rfl, by omega, ?_⟩
  · have hend : toSeg^[distN ids toSeg e x] x = e :=
      reachesEnd_iterate_end ids.length x (h.reach x hx)
    have hsucc : distN ids toSeg e x - 1 + 1 = distN ids toSeg e x := by omega
    have h2 : toSeg^[distN ids toSeg e x - 1 + 1] x = e := by rw [hsucc]; exact hend
    rwa [Function.iterate_succ_apply'] at h2
  · intro j hj
    exact h.iterate_mem hx j (by omega)

/-! ## Lemmas on `initAssign` -/

theorem initAssign_snd : ∀ (L : List ℤ) (c : ℕ) (f : ℤ → ℕ),
    (initAssign L c f).2 = c + L.length := by
  intro L
  induction L with
  | nil => intro c f; simp [initAssign]
  | cons a L ih =>
    intro c f
    show (initAssign L (c + 1) _).2 = c + (L.length + 1)
    rw [ih]
    omega

theorem initAssign_not_mem : ∀ (L : List ℤ) (c : ℕ) (f : ℤ → ℕ) (t : ℤ), t ∉ L →
    (initAssign L c f).1 t = f t := by
  intro L
  induction L with
  | nil => intro c f t _; rfl
  | cons a L ih =>
    intro c f t ht
    have hta : t ≠ a := fun hh => ht (hh ▸ List.mem_cons_self a L)
    have htL : t ∉ L := fun hh => ht (List.mem_cons_of_mem a hh)
    show (initAssign L (c + 1) _).1 t = f t
    rw [ih _ _ t htL]
    simp [hta]

theorem initAssign_mem_bounds : ∀ (L : List ℤ) (c : ℕ) (f : ℤ → ℕ), L.Nodup →
    ∀ t ∈ L, c + 1 ≤ (initAssign L c f).1 t ∧ (initAssign L c f).1 t ≤ c + L.length := by
  intro L
  induction L with
  | nil => intro c f _ t ht; cases ht
  | cons a L ih =>
    intro c f hnd t ht
    rcases List.pairwise_cons.mp hnd with ⟨hna, hndL⟩
    rcases List.mem_cons.mp ht with hta | htL
    · have haL : a ∉ L := fun hh => (hna a hh) rfl
      have hv : (initAssign (a :: L) c f).1 t = c + 1 := by
        rw [hta]
        show (initAssign L (c + 1) (fun x => if x = a then c + 1 else f x)).1 a = c + 1
        rw [initAssign_not_mem L (c + 1) _ a haL]
        simp
      rw [hv]
      simp only [List.length_cons]
      omega
    · have hb := ih (c + 1) (fun x => if x = a then c + 1 else f x) hndL t htL
      have ht2 : (initAssign (a :: L) c f).1 t =
          (initAssign L (c + 1) (fun x => if x = a then c + 1 else f x)).1 t := rfl
      rw [ht2]
      simp only [List.length_cons]
      omega

theorem initAssign_inj : ∀ (L : List ℤ) (c : ℕ) (f : ℤ → ℕ), L.Nodup →
    ∀ s ∈ L, ∀ t ∈ L,
      (initAssign L c f).1 s = (initAssign L c f).1 t → s = t := by
  intro L
  induction L with
  | nil => intro c f _ s hs; cases hs
  | cons a L ih =>
    intro c f hnd s hs t ht heq
    rcases List.pairwise_cons.mp hnd with ⟨hna, hndL⟩
    have haL : a ∉ L := fun hh => (hna a hh) rfl
    rcases List.mem_cons.mp hs with hsa | hsL <;> rcases List.mem_cons.mp ht with hta | htL
    · rw [hsa, hta]
    · exfalso
      have hv : (initAssign (a :: L) c f).1 s = c + 1 := by
        rw [hsa]
        show (initAssign L (c + 1) (fun x => if x = a then c + 1 else f x)).1 a = c + 1
        rw [initAssign_not_mem L (c + 1) _ a haL]
        simp
      have hb := initAssign_mem_bounds L (c + 1)
        (fun x => if x = a then c + 1 else f x) hndL t htL
      have ht2 : (initAssign (a :: L) c f).1 t =
          (initAssign L (c + 1) (fun x => if x = a then c + 1 else f x)).1 t := rfl
      omega
    · exfalso
      have hv : (initAssign (a :: L) c f).1 t = c + 1 := by
        rw [hta]
        show (initAssign L (c + 1) (fun x => if x = a then c + 1 else f x)).1 a = c + 1
        rw [initAssign_not_mem L (c + 1) _ a haL]
        simp
      have hb := initAssign_mem_bounds L (c + 1)
        (fun x => if x = a then c + 1 else f x) hndL s hsL
      have hs2 : (initAssign (a :: L) c f).1 s =
          (initAssign L (c + 1) (fun x => if x = a then c + 1 else f x)).1 s := rfl
      omega
    · exact ih (c + 1) _ hndL s hsL t htL heq

/-! ## Correctness of the downstream-to-upstream traversal

`resurse_upstream` writes, at every segment it visits, the hop count of the
call (`num + 1`), and this always equals the segment's true hop count to the
sentinel because the recursion passes `num + 1` one level upstream. -/

/-- The field writes performed at the head of each `resurse_upstream` call. -/
def travWrite (segnum catg : ℤ) (num : ℕ) (length : ℚ) (glen : ℤ → ℚ)
    (t : TravState) : TravState :=
  { cat := fun x => if x = segnum then catg else t.cat x
    num := fun x => if x = segnum then num + 1 else t.num x
    len := fun x => if x = segnum then length + glen segnum else t.len x }

theorem resurse_succ (ids : List ℤ) (toSeg : ℤ → ℤ) (glen : ℤ → ℚ) (f : ℕ)
    (segnum catg : ℤ) (num : ℕ) (length : ℚ) (t : TravState) :
    resurse ids toSeg glen (f + 1) segnum catg num length t =
      (upsOf ids toSeg segnum).foldl
        (fun acc u => resurse ids toSeg glen f u catg (num + 1) (length + glen segnum) acc)
        (travWrite segnum catg num length glen t) := rfl

theorem resurse_num_pres {ids : List ℤ} {toSeg : ℤ → ℤ} {e : ℤ}
    (h : NetOK ids toSeg e) (glen : ℤ → ℚ) :
    ∀ (f : ℕ) (s catg : ℤ) (n : ℕ) (ln : ℚ) (t : TravState),
      s ∈ ids → distN ids toSeg e s = n + 1 →
      ∀ x, (resurse ids toSeg glen f s catg n ln t).num x = t.num x ∨
        (x ∈ ids ∧ (resurse ids toSeg glen f s catg n ln t).num x = distN ids toSeg e x) := by
  intro f
  induction f with
  | zero => intro s catg n ln t _ _ x; exact Or.inl rfl
  | succ f ih =>
    intro s catg n ln t hs hd x
    have hups : ∀ u ∈ upsOf ids toSeg s, u ∈ ids ∧ distN ids toSeg e u = (n + 1) + 1 := by
      intro u hu
      rcases mem_upsOf.mp hu with ⟨hui, hut⟩
      exact ⟨hui, by rw [h.dist_step hui hut hs, hd]⟩
    have hfold : ∀ (L : List ℤ),
        (∀ u ∈ L, u ∈ ids ∧ distN ids toSeg e u = (n + 1) + 1) →
        ∀ (t2 : TravState) (x : ℤ),
          ((L.foldl
              (fun acc u => resurse ids toSeg glen f u catg (n + 1) (ln + glen s) acc)
              t2).num x = t2.num x) ∨
          (x ∈ ids ∧
            (L.foldl
              (fun acc u => resurse ids toSeg glen f u catg (n + 1) (ln + glen s) acc)
              t2).num x = distN ids toSeg e x) := by
      intro L
      induction L with
      | nil => intro _ t2 x; exact Or.inl rfl
      | cons u L ihL =>
        intro hL t2 x
        have hu := hL u (List.mem_cons_self u L)
        have hstep := ih u catg (n + 1) (ln + glen s) t2 hu.1 hu.2 x
        have hrest := ihL (fun v hv => hL v (List.mem_cons_of_mem u hv))
          (resurse ids toSeg glen f u catg (n + 1) (ln + glen s) t2) x
        rw [List.foldl_cons]
        rcases hrest with hrest | hrest
        · rcases hstep with hstep | hstep
          · exact Or.inl (by rw [hrest, hstep])
          · exact Or.inr ⟨hstep.1, by rw [hrest, hstep.2]⟩
        · exact Or.inr hrest
    rw [resurse_succ]
    rcases hfold (upsOf ids toSeg s) hups (travWrite s catg n ln glen t) x with h1 | h1
    · by_cases hxs : x = s
      · refine Or.inr ⟨hxs ▸ hs, ?_⟩
        rw [h1]
        simp [travWrite, hxs]
        omega
      · refine Or.inl ?_
        rw [h1]
        simp [travWrite, hxs]
    · exact Or.inr h1

theorem resurse_fold_pres {ids : List ℤ} {toSeg : ℤ → ℤ} {e : ℤ}
    (h : NetOK ids toSeg e) (glen : ℤ → ℚ) (f : ℕ) (catg : ℤ) (n : ℕ) (ln : ℚ) :
    ∀ (L : List ℤ) (t : TravState),
      (∀ u ∈ L, u ∈ ids ∧ distN ids toSeg e u = n + 1) →
      ∀ x, ((L.foldl (fun acc u => resurse ids toSeg glen f u catg n ln acc) t).num x
              = t.num x) ∨
        (x ∈ ids ∧
          (L.foldl (fun acc u => resurse ids toSeg glen f u catg n ln acc) t).num x
            = distN ids toSeg e x) := by
  intro L
  induction L with
  | nil => intro t _ x; exact Or.inl rfl
  | cons u L ihL =>
    intro t hL x
    have hu := hL u (List.mem_cons_self u L)
    have hstep := resurse_num_pres h glen f u catg n ln t hu.1 hu.2 x
    have hrest := ihL (resurse ids toSeg glen f u catg n ln t)
      (fun v hv => hL v (List.mem_cons_of_mem u hv)) x
    rw [List.foldl_cons]
    rcases hrest with hrest | hrest
    · rcases hstep with hstep | hstep
      · exact Or.inl (by rw [hrest, hstep])
      · exact Or.inr ⟨hstep.1, by rw [hrest, hstep.2]⟩
    · exact Or.inr hrest

theorem resurse_num_covers {ids : List ℤ} {toSeg : ℤ → ℤ} {e : ℤ}
    (h : NetOK ids toSeg e) (glen : ℤ → ℚ) :
    ∀ (f : ℕ) (s catg : ℤ) (n : ℕ) (ln : ℚ) (t : TravState) (x : ℤ) (k : ℕ),
      s ∈ ids → distN ids toSeg e s = n + 1 → x ∈ ids →
      (∀ j, j ≤ k → toSeg^[j] x ∈ ids) → toSeg^[k] x = s → k < f →
      (resurse ids toSeg glen f s catg n ln t).num x = distN ids toSeg e x := by
  intro f
  induction f with
  | zero =>
    intro s catg n ln t x k _ _ _ _ _ hk
    exact absurd hk (Nat.not_lt_zero k)
  | succ f ih =>
    intro s catg n ln t x k hs hd hx hpath hit hk
    rw [resurse_succ]
    have hups : ∀ u ∈ upsOf ids toSeg s, u ∈ ids ∧ distN ids toSeg e u = (n + 1) + 1 := by
      intro u hu
      rcases mem_upsOf.mp hu with ⟨hui, hut⟩
      exact ⟨hui, by rw [h.dist_step hui hut hs, hd]⟩
    cases k with
    | zero =>
      have hxs : x = s := by simpa using hit
      have ht1 : (travWrite s catg n ln glen t).num x = distN ids toSeg e x := by
        simp [travWrite, hxs]
        omega
      rcases resurse_fold_pres h glen f catg (n + 1) (ln + glen s)
        (upsOf ids toSeg s) (travWrite s catg n ln glen t) hups x with h1 | h1
      · rw [h1, ht1]
      · exact h1.2
    | succ j =>
      have hu_mem : toSeg^[j] x ∈ ids := hpath j (Nat.le_succ j)
      have hu_to : toSeg (toSeg^[j] x) = s := by
        rw [← Function.iterate_succ_apply' toSeg j x]
        exact hit
      have hu_ups : toSeg^[j] x ∈ upsOf ids toSeg s := mem_upsOf.mpr ⟨hu_mem, hu_to⟩
      obtain ⟨L1, L2, hL⟩ := List.append_of_mem hu_ups
      rw [hL, List.foldl_append, List.foldl_cons]
      have hdist_u : distN ids toSeg e (toSeg^[j] x) = (n + 1) + 1 := by
        rw [h.dist_step hu_mem hu_to hs, hd]
      have hcall := ih (toSeg^[j] x) catg (n + 1) (ln + glen s)
        (L1.foldl (fun acc u => resurse ids toSeg glen f u catg (n + 1) (ln + glen s) acc)
          (travWrite s catg n ln glen t))
        x j hu_mem hdist_u hx
        (fun j2 hj2 => hpath j2 (le_trans hj2 (Nat.le_succ j))) rfl
        (Nat.lt_of_succ_lt_succ hk)
      have hL2 : ∀ u ∈ L2, u ∈ ids ∧ distN ids toSeg e u = (n + 1) + 1 := by
        intro u hu
        refine hups u ?_
        rw [hL]
        exact List.mem_append_right _ (List.mem_cons_of_mem _ hu)
      rcases resurse_fold_pres h glen f catg (n + 1) (ln + glen s) L2 _ hL2 x with h1 | h1
      · rw [h1]
        exact hcall
      · exact h1.2

theorem driver_fold_pres {ids : List ℤ} {toSeg : ℤ → ℤ} {e : ℤ}
    (h : NetOK ids toSeg e) (glen : ℤ → ℚ) :
    ∀ (L : List ℤ) (t : TravState), (∀ o ∈ L, o ∈ ids ∧ toSeg o = e) →
      ∀ x, ((L.foldl (fun t2 o => resurse ids toSeg glen ids.length o o 0 0 t2) t).num x
              = t.num x) ∨
        (x ∈ ids ∧
          (L.foldl (fun t2 o => resurse ids toSeg glen ids.length o o 0 0 t2) t).num x
            = distN ids toSeg e x) := by
  intro L
  induction L with
  | nil => intro t _ x; exact Or.inl rfl
  | cons o L ihL =>
    intro t hL x
    have ho := hL o (List.mem_cons_self o L)
    have hdo : distN ids toSeg e o = 0 + 1 := by
      rw [h.dist_outlet ho.1 ho.2]
    have hstep := resurse_num_pres h glen ids.length o o 0 0 t ho.1 hdo x
    have hrest := ihL (resurse ids toSeg glen ids.length o o 0 0 t)
      (fun v hv => hL v (List.mem_cons_of_mem o hv)) x
    rw [List.foldl_cons]
    rcases hrest with hrest | hrest
    · rcases hstep with hstep | hstep
      · exact Or.inl (by rw [hrest, hstep])
      · exact Or.inr ⟨hstep.1, by rw [hrest, hstep.2]⟩
    · exact Or.inr hrest

theorem traversal_num {ids : List ℤ} {toSeg : ℤ → ℤ} {e : ℤ}
    (h : NetOK ids toSeg e) (glen : ℤ → ℚ) :
    ∀ x ∈ ids, (traversal ids toSeg glen e).num x = distN ids toSeg e x := by
  intro x hx
  obtain ⟨o, k, ho, hoe, hko, hkN, hpath⟩ := h.exists_outlet_path hx
  have ho_out : o ∈ outletsOf ids toSeg e := mem_outletsOf.mpr ⟨ho, hoe⟩
  obtain ⟨L1, L2, hL⟩ := List.append_of_mem ho_out
  unfold traversal
  rw [hL, List.foldl_append, List.foldl_cons]
  have hdo : distN ids toSeg e o = 0 + 1 := by
    rw [h.dist_outlet ho hoe]
  have hcall := resurse_num_covers h glen ids.length o o 0 0
    (L1.foldl (fun t2 o2 => resurse ids toSeg glen ids.length o2 o2 0 0 t2)
      { cat := fun _ => e, num := fun _ => 0, len := fun _ => 0 })
    x k ho hdo hx hpath hko hkN
  have hL2 : ∀ o2 ∈ L2, o2 ∈ ids ∧ toSeg o2 = e := by
    intro o2 ho2
    have : o2 ∈ outletsOf ids toSeg e := by
      rw [hL]
      exact List.mem_append_right _ (List.mem_cons_of_mem _ ho2)
    exact mem_outletsOf.mp this
  rcases driver_fold_pres h glen L2 _ hL2 x with h1 | h1
  · rw [h1]
    exact hcall
  · exact h1.2

theorem traversal_maxNum {ids : List ℤ} {toSeg : ℤ → ℤ} {e : ℤ}
    (h : NetOK ids toSeg e) (glen : ℤ → ℚ) :
    (ids.map (traversal ids toSeg glen e).num).foldr max 0 = maxDist ids toSeg e := by
  unfold maxDist
  congr 1
  exact List.map_congr_left (fun x hx => traversal_num h glen x hx)

/-! ## Invariant of the topological sequencing loop -/

/-- Invariant carried through the sequencer after `i` iterations of the main
loop: the completed set is a duplicate-free subset of the index, equal to the
set of positively sequenced segments; the sequence values of completed
segments are exactly `1..counter` and respect the topology; the stream-order
values satisfy the Strahler rule; headwaters are completed, and (field
`compl`) every segment within `i` hops of the deepest headwater level is
already completed. -/
structure SeqInv (ids : List ℤ) (toSeg : ℤ → ℤ) (e : ℤ) (i : ℕ) (st : OrdState) :
    Prop where
  sub : ∀ s ∈ st.completed, s ∈ ids
  nodup : st.completed.Nodup
  counter_eq : st.counter = st.completed.length
  mem_iff : ∀ s ∈ ids, (s ∈ st.completed ↔ 1 ≤ st.seq s)
  untouched : ∀ s, s ∉ st.completed → st.seq s = 0 ∧ st.ord s = 0
  seq_le : ∀ s ∈ st.completed, st.seq s ≤ st.counter
  inj : ∀ s ∈ st.completed, ∀ t ∈ st.completed, st.seq s = st.seq t → s = t
  topo : ∀ s ∈ st.completed, ∀ u ∈ ids, toSeg u = s →
    u ∈ st.completed ∧ st.seq u < st.seq s
  hw : ∀ s ∈ ids, upsOf ids toSeg s = [] → s ∈ st.completed
  ordHw : ∀ s ∈ st.completed, upsOf ids toSeg s = [] → st.ord s = 1
  ordUp : ∀ s ∈ st.completed, upsOf ids toSeg s ≠ [] →
    st.ord s = strahlerStep ((upsOf ids toSeg s).map st.ord)
  compl : ∀ s ∈ ids, maxDist ids toSeg e ≤ distN ids toSeg e s + i → s ∈ st.completed

theorem admitStep_completed_cases (ids : List ℤ) (toSeg : ℤ → ℤ) (st : OrdState)
    (s : ℤ) :
    (admitStep ids toSeg st s).completed = s :: st.completed ∨
      admitStep ids toSeg st s = st := by
  unfold admitStep
  split
  · exact Or.inl rfl
  · exact Or.inr rfl

theorem admitStep_completed_sub (ids : List ℤ) (toSeg : ℤ → ℤ) (st : OrdState)
    (s : ℤ) : ∀ x ∈ st.completed, x ∈ (admitStep ids toSeg st s).completed := by
  rcases admitStep_completed_cases ids toSeg st s with hc | hc
  · intro x hx
    rw [hc]
    exact List.mem_cons_of_mem _ hx
  · intro x hx
    rw [hc]
    exact hx

theorem foldl_admit_completed_sub (ids : List ℤ) (toSeg : ℤ → ℤ) :
    ∀ (L : List ℤ) (st : OrdState),
      ∀ x ∈ st.completed, x ∈ (L.foldl (admitStep ids toSeg) st).completed := by
  intro L
  induction L with
  | nil => intro st x hx; exact hx
  | cons d L ih =>
    intro st x hx
    exact ih _ x (admitStep_completed_sub ids toSeg st d x hx)

theorem admitStep_inv {ids : List ℤ} {toSeg : ℤ → ℤ} {e : ℤ}
    (h : NetOK ids toSeg e) {i : ℕ} {st : OrdState} {s : ℤ}
    (hinv : SeqInv ids toSeg e i st) (hs : s ∈ ids) (hnot : s ∉ st.completed)
    (hups : upsOf ids toSeg s ≠ []) :
    SeqInv ids toSeg e i (admitStep ids toSeg st s) := by
  unfold admitStep
  by_cases hall : ((upsOf ids toSeg s).all fun u => decide (u ∈ st.completed)) = true
  case neg => rw [if_neg hall]; exact hinv
  rw [if_pos hall]
  have hallm : ∀ u ∈ upsOf ids toSeg s, u ∈ st.completed := by
    intro u hu
    exact of_decide_eq_true (List.all_eq_true.mp hall u hu)
  refine ⟨?_, ?_, ?_, ?_, ?_, ?_, ?_, ?_, ?_, ?_, ?_, ?_⟩
  · -- sub
    intro t ht
    rcases List.mem_cons.mp ht with rfl | ht
    · exact hs
    · exact hinv.sub t ht
  · -- nodup
    exact List.nodup_cons.mpr ⟨hnot, hinv.nodup⟩
  · -- counter_eq
    show st.counter + 1 = (s :: st.completed).length
    rw [List.length_cons, hinv.counter_eq]
  · -- mem_iff
    intro t htids
    show t ∈ s :: st.completed ↔ 1 ≤ (if t = s then st.counter + 1 else st.seq t)
    constructor
    · intro ht
      rcases List.mem_cons.mp ht with rfl | ht
      · simp
    
      · have hts : t ≠ s := fun hh => hnot (hh ▸ ht)
        rw [if_neg hts]
        exact (hinv.mem_iff t htids).mp ht
    · intro h1
      by_cases hts : t = s
      · rw [hts]; exact List.mem_cons_self _ _
      · rw [if_neg hts] at h1
        exact List.mem_cons_of_mem _ ((hinv.mem_iff t htids).mpr h1)
  · -- untouched
    intro t ht
    have hts : t ≠ s := fun hh => ht (hh ▸ List.mem_cons_self s st.completed)
    have htold : t ∉ st.completed := fun hh => ht (List.mem_cons_of_mem _ hh)
    constructor
    · show (if t = s then st.counter + 1 else st.seq t) = 0
      rw [if_neg hts]
      exact (hinv.untouched t htold).1
    · show (if t = s then _ else st.ord t) = 0
      rw [if_neg hts]
      exact (hinv.untouched t htold).2
  · -- seq_le
    intro t ht
    show (if t = s then st.counter + 1 else st.seq t) ≤ st.counter + 1
    by_cases hts : t = s
    · rw [if_pos hts]
    · rw [if_neg hts]
      rcases List.mem_cons.mp ht with hh | ht2
      · exact absurd hh hts
      · exact le_trans (hinv.seq_le t ht2) (Nat.le_succ _)
  · -- inj
    intro t1 h1 t2 h2 heq
    have heq2 : (if t1 = s then st.counter + 1 else st.seq t1) =
        (if t2 = s then st.counter + 1 else st.seq t2) := heq
    by_cases h1s : t1 = s <;> by_cases h2s : t2 = s
    · rw [h1s, h2s]
    · exfalso
      have ht2old : t2 ∈ st.completed := by
        rcases List.mem_cons.mp h2 with hh | hh
        · exact absurd hh h2s
        · exact hh
      have hle := hinv.seq_le t2 ht2old
      rw [if_pos h1s, if_neg h2s] at heq2
      omega
    · exfalso
      have ht1old : t1 ∈ st.completed := by
        rcases List.mem_cons.mp h1 with hh | hh
        · exact absurd hh h1s
        · exact hh
      have hle := hinv.seq_le t1 ht1old
      rw [if_neg h1s, if_pos h2s] at heq2
      omega
    · have ht1old : t1 ∈ st.completed := by
        rcases List.mem_cons.mp h1 with hh | hh
        · exact absurd hh h1s
        · exact hh
      have ht2old : t2 ∈ st.completed := by
        rcases List.mem_cons.mp h2 with hh | hh
        · exact absurd hh h2s
        · exact hh
      rw [if_neg h1s, if_neg h2s] at heq2
      exact hinv.inj t1 ht1old t2 ht2old heq2
  · -- topo
    intro t ht u hu hut
    rcases List.mem_cons.mp ht with rfl | htold
    · have humem : u ∈ upsOf ids toSeg t := mem_upsOf.mpr ⟨hu, hut⟩
      have huc : u ∈ st.completed := hallm u humem
      have hus : u ≠ t := fun hh => hnot (hh ▸ huc)
      refine ⟨List.mem_cons_of_mem _ huc, ?_⟩
      show (if u = t then st.counter + 1 else st.seq u) <
        (if t = t then st.counter + 1 else st.seq t)
      rw [if_neg hus, if_pos rfl]
      have := hinv.seq_le u huc
      omega
    · have hts : t ≠ s := fun hh => hnot (hh ▸ htold)
      obtain ⟨huc, hlt⟩ := hinv.topo t htold u hu hut
      have hus : u ≠ s := fun hh => hnot (hh ▸ huc)
      refine ⟨List.mem_cons_of_mem _ huc, ?_⟩
      show (if u = s then st.counter + 1 else st.seq u) <
        (if t = s then st.counter + 1 else st.seq t)
      rw [if_neg hus, if_neg hts]
      exact hlt
  · -- hw
    intro t htids hupst
    exact List.mem_cons_of_mem _ (hinv.hw t htids hupst)
  · -- ordHw
    intro t ht hupst
    rcases List.mem_cons.mp ht with rfl | htold
    · exact absurd hupst hups
    · have hts : t ≠ s := fun hh => hnot (hh ▸ htold)
      show (if t = s then _ else st.ord t) = 1
      rw [if_neg hts]
      exact hinv.ordHw t htold hupst
  · -- ordUp
    intro t ht hupst
    rcases List.mem_cons.mp ht with rfl | htold
    · show (if t = t then strahlerStep ((upsOf ids toSeg t).map st.ord) else st.ord t) =
        strahlerStep ((upsOf ids toSeg t).map fun x =>
          if x = t then strahlerStep ((upsOf ids toSeg t).map st.ord) else st.ord x)
      rw [if_pos rfl]
      congr 1
      refine (List.map_congr_left ?_).symm
      intro u hu
      have huc : u ∈ st.completed := hallm u hu
      have hus : u ≠ t := fun hh => hnot (hh ▸ huc)
      rw [if_neg hus]
    · have hts : t ≠ s := fun hh => hnot (hh ▸ htold)
      show (if t = s then _ else st.ord t) =
        strahlerStep ((upsOf ids toSeg t).map fun x =>
          if x = s then _ else st.ord x)
      rw [if_neg hts]
      have hmap : ((upsOf ids toSeg t).map fun x =>
          if x = s then strahlerStep ((upsOf ids toSeg s).map st.ord) else st.ord x) =
          (upsOf ids toSeg t).map st.ord := by
        refine List.map_congr_left ?_
        intro u hu
        rcases mem_upsOf.mp hu with ⟨hui, hut⟩
        have huc : u ∈ st.completed := (hinv.topo t htold u hui hut).1
        have hus : u ≠ s := fun hh => hnot (hh ▸ huc)
        rw [if_neg hus]
      rw [hmap]
      exact hinv.ordUp t htold hupst
  · -- compl
    intro t htids hcond
    exact List.mem_cons_of_mem _ (hinv.compl t htids hcond)

theorem foldl_admit_inv {ids : List ℤ} {toSeg : ℤ → ℤ} {e : ℤ}
    (h : NetOK ids toSeg e) :
    ∀ (L : List ℤ) {i : ℕ} {st : OrdState}, SeqInv ids toSeg e i st →
      (∀ d ∈ L, d ∈ ids) → (∀ d ∈ L, d ∉ st.completed) → L.Nodup →
      (∀ d ∈ L, upsOf ids toSeg d ≠ []) →
      SeqInv ids toSeg e i (L.foldl (admitStep ids toSeg) st) := by
  intro L
  induction L with
  | nil => intro i st hinv _ _ _ _; exact hinv
  | cons d L ih =>
    intro i st hinv hids hdisj hnd hupsL
    rw [List.foldl_cons]
    rcases List.pairwise_cons.mp hnd with ⟨hdL, hndL⟩
    have hst1 := admitStep_inv h hinv (hids d (List.mem_cons_self d L))
      (hdisj d (List.mem_cons_self d L)) (hupsL d (List.mem_cons_self d L))
    refine ih hst1 (fun x hx => hids x (List.mem_cons_of_mem d hx)) ?_ hndL
      (fun x hx => hupsL x (List.mem_cons_of_mem d hx))
    intro x hx
    rcases admitStep_completed_cases ids toSeg st d with hc | hc
    · rw [hc]
      intro hmem
      rcases List.mem_cons.mp hmem with hh | hh
      · exact (hdL x hx) hh.symm
      · exact (hdisj x (List.mem_cons_of_mem d hx)) hh
    · rw [hc]
      exact hdisj x (List.mem_cons_of_mem d hx)

theorem foldl_admit_mem (ids : List ℤ) (toSeg : ℤ → ℤ) :
    ∀ (L : List ℤ) (st : OrdState) (s : ℤ),
      s ∈ L → (∀ u ∈ upsOf ids toSeg s, u ∈ st.completed) →
      s ∈ (L.foldl (admitStep ids toSeg) st).completed := by
  intro L
  induction L with
  | nil => intro st s hs; cases hs
  | cons d L ih =>
    intro st s hsL hup
    rw [List.foldl_cons]
    rcases List.mem_cons.mp hsL with hds | hsL2
    · subst hds
      have hall : ((upsOf ids toSeg s).all fun u => decide (u ∈ st.completed)) = true := by
        rw [List.all_eq_true]
        intro u hu
        exact decide_eq_true (hup u hu)
      have hmem : s ∈ (admitStep ids toSeg st s).completed := by
        unfold admitStep
        rw [if_pos hall]
        exact List.mem_cons_self _ _
      exact foldl_admit_completed_sub ids toSeg L _ s hmem
    · exact ih _ s hsL2 (fun u hu => admitStep_completed_sub ids toSeg st d u (hup u hu))

theorem mem_frontierOf {ids : List ℤ} {toSeg : ℤ → ℤ} {st : OrdState} {d : ℤ} :
    d ∈ frontierOf ids toSeg st ↔
      d ∈ ids ∧ (∃ c ∈ st.completed, toSeg c = d) ∧ d ∉ st.completed := by
  simp [frontierOf, List.any_eq_true, and_assoc]

theorem seqIter_inv {ids : List ℤ} {toSeg : ℤ → ℤ} {e : ℤ}
    (h : NetOK ids toSeg e) {num : ℤ → ℕ} {len : ℤ → ℚ} {i : ℕ} {st : OrdState}
    (hinv : SeqInv ids toSeg e i st) :
    SeqInv ids toSeg e (i + 1) (seqIter ids toSeg num len st) := by
  unfold seqIter
  have hperm : (sortBy (leDescKey num len) (frontierOf ids toSeg st)).Perm
      (frontierOf ids toSeg st) := sortBy_perm _ _
  have hLids : ∀ d ∈ sortBy (leDescKey num len) (frontierOf ids toSeg st), d ∈ ids :=
    fun d hd => (mem_frontierOf.mp (hperm.mem_iff.mp hd)).1
  have hLdisj : ∀ d ∈ sortBy (leDescKey num len) (frontierOf ids toSeg st),
      d ∉ st.completed :=
    fun d hd => (mem_frontierOf.mp (hperm.mem_iff.mp hd)).2.2
  have hLnd : (sortBy (leDescKey num len) (frontierOf ids toSeg st)).Nodup :=
    hperm.nodup_iff.mpr (List.Nodup.filter _ h.nodup)
  have hLups : ∀ d ∈ sortBy (leDescKey num len) (frontierOf ids toSeg st),
      upsOf ids toSeg d ≠ [] := by
    intro d hd
    obtain ⟨c, hc, hcd⟩ := (mem_frontierOf.mp (hperm.mem_iff.mp hd)).2.1
    exact List.ne_nil_of_mem (mem_upsOf.mpr ⟨hinv.sub c hc, hcd⟩)
  have hinv1 := foldl_admit_inv h _ hinv hLids hLdisj hLnd hLups
  refine { hinv1 with compl := ?_ }
  intro s hsids hcond
  by_cases hsc : s ∈ st.completed
  · exact foldl_admit_completed_sub ids toSeg _ st s hsc
  · have hups : upsOf ids toSeg s ≠ [] := by
      intro hnil
      exact hsc (hinv.hw s hsids hnil)
    have hupsC : ∀ u ∈ upsOf ids toSeg s, u ∈ st.completed := by
      intro u hu
      rcases mem_upsOf.mp hu with ⟨hui, hut⟩
      refine hinv.compl u hui ?_
      rw [h.dist_step hui hut hsids]
      omega
    have hsf : s ∈ frontierOf ids toSeg st := by
      obtain ⟨u, hu⟩ := List.exists_mem_of_ne_nil _ hups
      rcases mem_upsOf.mp hu with ⟨hui, hut⟩
      exact mem_frontierOf.mpr ⟨hsids, ⟨u, hupsC u hu, hut⟩, hsc⟩
    exact foldl_admit_mem ids toSeg _ st s (hperm.mem_iff.mpr hsf) hupsC

theorem seqLoop_succ (ids : List ℤ) (toSeg : ℤ → ℤ) (num : ℤ → ℕ) (len : ℤ → ℚ)
    (f : ℕ) (st : OrdState) :
    seqLoop ids toSeg num len (f + 1) st =
      if (ids.all fun s => 1 ≤ (seqIter ids toSeg num len st).seq s) then
        seqIter ids toSeg num len st
      else seqLoop ids toSeg num len f (seqIter ids toSeg num len st) := rfl

theorem seqLoop_inv {ids : List ℤ} {toSeg : ℤ → ℤ} {e : ℤ}
    (h : NetOK ids toSeg e) (num : ℤ → ℕ) (len : ℤ → ℚ) :
    ∀ (f : ℕ) {i : ℕ} {st : OrdState}, SeqInv ids toSeg e i st →
      ∃ j, i ≤ j ∧ SeqInv ids toSeg e j (seqLoop ids toSeg num len f st) := by
  intro f
  induction f with
  | zero => intro i st hinv; exact ⟨i, le_refl i, hinv⟩
  | succ f ih =>
    intro i st hinv
    have h1 := @seqIter_inv _ _ _ h num len _ _ hinv
    rw [seqLoop_succ]
    by_cases hb : (ids.all fun s => decide (1 ≤ (seqIter ids toSeg num len st).seq s)) = true
    · rw [if_pos hb]
      exact ⟨i + 1, Nat.le_succ i, h1⟩
    · rw [if_neg hb]
      obtain ⟨j, hij, hj⟩ := ih h1
      exact ⟨j, le_trans (Nat.le_succ i) hij, hj⟩

theorem seqLoop_complete {ids : List ℤ} {toSeg : ℤ → ℤ} {e : ℤ}
    (h : NetOK ids toSeg e) (num : ℤ → ℕ) (len : ℤ → ℚ) :
    ∀ (f : ℕ) {i : ℕ} {st : OrdState}, SeqInv ids toSeg e i st →
      maxDist ids toSeg e ≤ i + f + 1 →
      ∀ s ∈ ids, s ∈ (seqLoop ids toSeg num len f st).completed := by
  intro f
  induction f with
  | zero =>
    intro i st hinv hbound s hsids
    refine hinv.compl s hsids ?_
    have := h.dist_pos hsids
    omega
  | succ f ih =>
    intro i st hinv hbound s hsids
    have h1 := @seqIter_inv _ _ _ h num len _ _ hinv
    rw [seqLoop_succ]
    by_cases hb : (ids.all fun s => decide (1 ≤ (seqIter ids toSeg num len st).seq s)) = true
    · rw [if_pos hb]
      exact (h1.mem_iff s hsids).mpr (of_decide_eq_true (List.all_eq_true.mp hb s hsids))
    · rw [if_neg hb]
      exact ih h1 (by omega) s hsids

theorem init_inv {ids : List ℤ} {toSeg : ℤ → ℤ} {e : ℤ} (h : NetOK ids toSeg e)
    (num : ℤ → ℕ) (len : ℤ → ℚ) :
    SeqInv ids toSeg e 0
      { seq := (initAssign (sortBy (leDescKey num len) (headwaterOf ids toSeg)) 0
          (fun _ => 0)).1
        ord := fun s => if s ∈ headwaterOf ids toSeg then 1 else 0
        completed := sortBy (leDescKey num len) (headwaterOf ids toSeg)
        counter := (initAssign (sortBy (leDescKey num len) (headwaterOf ids toSeg)) 0
          (fun _ => 0)).2 } := by
  have hperm : (sortBy (leDescKey num len) (headwaterOf ids toSeg)).Perm
      (headwaterOf ids toSeg) := sortBy_perm _ _
  have hhwnd : (headwaterOf ids toSeg).Nodup := List.Nodup.filter _ h.nodup
  have hLnd : (sortBy (leDescKey num len) (headwaterOf ids toSeg)).Nodup :=
    hperm.nodup_iff.mpr hhwnd
  refine ⟨?_, hLnd, ?_, ?_, ?_, ?_, ?_, ?_, ?_, ?_, ?_, ?_⟩
  · -- sub
    intro t ht
    exact (mem_headwaterOf.mp (hperm.mem_iff.mp ht)).1
  · -- counter_eq
    show (initAssign (sortBy (leDescKey num len) (headwaterOf ids toSeg)) 0
      (fun _ => 0)).2 = (sortBy (leDescKey num len) (headwaterOf ids toSeg)).length
    rw [initAssign_snd]
    exact Nat.zero_add _
  · -- mem_iff
    intro t _
    constructor
    · intro ht
      exact (initAssign_mem_bounds _ 0 (fun _ => 0) hLnd t ht).1
    · intro h1
      have h1b : 1 ≤ (initAssign (sortBy (leDescKey num len) (headwaterOf ids toSeg)) 0
          (fun _ => 0)).1 t := h1
      by_contra hne
      rw [initAssign_not_mem _ 0 (fun _ => 0) t hne] at h1b
      omega
  · -- untouched
    intro t ht
    refine ⟨?_, ?_⟩
    · exact initAssign_not_mem _ 0 (fun _ => 0) t ht
    · show (if t ∈ headwaterOf ids toSeg then 1 else 0) = 0
      rw [if_neg (fun hh => ht (hperm.mem_iff.mpr hh))]
  · -- seq_le
    intro t ht
    have hb := (initAssign_mem_bounds _ 0 (fun _ => 0) hLnd t ht).2
    show (initAssign (sortBy (leDescKey num len) (headwaterOf ids toSeg)) 0
        (fun _ => 0)).1 t ≤
      (initAssign (sortBy (leDescKey num len) (headwaterOf ids toSeg)) 0 (fun _ => 0)).2
    rw [initAssign_snd]
    omega
  · -- inj
    exact initAssign_inj _ 0 (fun _ => 0) hLnd
  · -- topo
    intro t ht u hu hut
    exfalso
    have hempty := (mem_headwaterOf.mp (hperm.mem_iff.mp ht)).2
    have : u ∈ upsOf ids toSeg t := mem_upsOf.mpr ⟨hu, hut⟩
    rw [hempty] at this
    cases this
  · -- hw
    intro t htids hupst
    exact hperm.mem_iff.mpr (mem_headwaterOf.mpr ⟨htids, hupst⟩)
  · -- ordHw
    intro t ht _
    show (if t ∈ headwaterOf ids toSeg then 1 else 0) = 1
    rw [if_pos (hperm.mem_iff.mp ht)]
  · -- ordUp
    intro t ht hupst
    exact absurd (mem_headwaterOf.mp (hperm.mem_iff.mp ht)).2 hupst
  · -- compl
    intro t htids hcond
    have hupst : upsOf ids toSeg t = [] := by
      rcases List.eq_nil_or_concat (upsOf ids toSeg t) with hnil | ⟨L2, u, hcons⟩
      · exact hnil
      · exfalso
        have hu : u ∈ upsOf ids toSeg t := by
          rw [hcons]
          rw [List.concat_eq_append]
          exact List.mem_append_right _ (List.mem_cons_self u [])
        rcases mem_upsOf.mp hu with ⟨hui, hut⟩
        have h1 : distN ids toSeg e u = distN ids toSeg e t + 1 :=
          h.dist_step hui hut htids
        have h2 := h.dist_le_maxDist hui
        omega
    exact hperm.mem_iff.mpr (mem_headwaterOf.mpr ⟨htids, hupst⟩)

theorem buildOrdering_spec {ids : List ℤ} {toSeg : ℤ → ℤ} {e : ℤ}
    (h : NetOK ids toSeg e) (glen : ℤ → ℚ) :
    ∃ st : OrdState,
      buildOrdering ids toSeg glen e = some (traversal ids toSeg glen e, st, []) ∧
      (∃ j, SeqInv ids toSeg e j st) ∧
      (∀ s ∈ ids, s ∈ st.completed) ∧
      st.counter = ids.length := by
  have hmaxnum := traversal_maxNum h glen
  have hmaxpos := h.maxDist_pos
  -- the headwater list is nonempty: a segment of maximal hop count is one
  obtain ⟨s0, hs0, hs0max⟩ := exists_max_image (distN ids toSeg e) ids h.nonempty
  have hs0hw : s0 ∈ headwaterOf ids toSeg := by
    refine mem_headwaterOf.mpr ⟨hs0, ?_⟩
    rcases List.eq_nil_or_concat (upsOf ids toSeg s0) with hnil | ⟨L2, u, hcons⟩
    · exact hnil
    · exfalso
      have hu : u ∈ upsOf ids toSeg s0 := by
        rw [hcons]
        rw [List.concat_eq_append]
        exact List.mem_append_right _ (List.mem_cons_self u [])
      rcases mem_upsOf.mp hu with ⟨hui, hut⟩
      have h1 : distN ids toSeg e u = distN ids toSeg e s0 + 1 :=
        h.dist_step hui hut hs0
      have h2 := hs0max u hui
      omega
  have hhwne : headwaterOf ids toSeg ≠ [] := List.ne_nil_of_mem hs0hw
  have hinv0 := init_inv h (traversal ids toSeg glen e).num (traversal ids toSeg glen e).len
  obtain ⟨j, _, hj⟩ := seqLoop_inv h (traversal ids toSeg glen e).num
    (traversal ids toSeg glen e).len (maxDist ids toSeg e) hinv0
  have hcompl := seqLoop_complete h (traversal ids toSeg glen e).num
    (traversal ids toSeg glen e).len (maxDist ids toSeg e) hinv0 (by omega)
  have heq : buildOrdering ids toSeg glen e =
      some (traversal ids toSeg glen e,
        seqLoop ids toSeg (traversal ids toSeg glen e).num
          (traversal ids toSeg glen e).len (maxDist ids toSeg e)
          { seq := (initAssign (sortBy (leDescKey (traversal ids toSeg glen e).num
              (traversal ids toSeg glen e).len) (headwaterOf ids toSeg)) 0
              (fun _ => 0)).1
            ord := fun s => if s ∈ headwaterOf ids toSeg then 1 else 0
            completed := sortBy (leDescKey (traversal ids toSeg glen e).num
              (traversal ids toSeg glen e).len) (headwaterOf ids toSeg)
            counter := (initAssign (sortBy (leDescKey (traversal ids toSeg glen e).num
              (traversal ids toSeg glen e).len) (headwaterOf ids toSeg)) 0
              (fun _ => 0)).2 }, []) := by
    unfold buildOrdering
    rw [if_neg hhwne, hmaxnum, if_neg (by omega)]
  refine ⟨_, heq, ⟨j, hj⟩, hcompl, ?_⟩
  rw [hj.counter_eq]
  have hfin : (seqLoop ids toSeg (traversal ids toSeg glen e).num
      (traversal ids toSeg glen e).len (maxDist ids toSeg e)
      { seq := (initAssign (sortBy (leDescKey (traversal ids toSeg glen e).num
          (traversal ids toSeg glen e).len) (headwaterOf ids toSeg)) 0
          (fun _ => 0)).1
        ord := fun s => if s ∈ headwaterOf ids toSeg then 1 else 0
        completed := sortBy (leDescKey (traversal ids toSeg glen e).num
          (traversal ids toSeg glen e).len) (headwaterOf ids toSeg)
        counter := (initAssign (sortBy (leDescKey (traversal ids toSeg glen e).num
          (traversal ids toSeg glen e).len) (headwaterOf ids toSeg)) 0
          (fun _ => 0)).2 }).completed.toFinset = ids.toFinset := by
    apply Finset.ext
    intro x
    simp only [List.mem_toFinset]
    exact ⟨fun hx => hj.sub x hx, fun hx => hcompl x hx⟩
  rw [← List.toFinset_card_of_nodup hj.nodup, hfin, List.toFinset_card_of_nodup h.nodup]

/-! ## Silent termination of the sequencer (no diagnostics, stalled rows stay 0) -/

theorem admitStep_untouched (ids : List ℤ) (toSeg : ℤ → ℤ) (st : OrdState) (s : ℤ)
    (h : ∀ x, x ∉ st.completed → st.seq x = 0 ∧ st.ord x = 0) :
    ∀ x, x ∉ (admitStep ids toSeg st s).completed →
      (admitStep ids toSeg st s).seq x = 0 ∧ (admitStep ids toSeg st s).ord x = 0 := by
  unfold admitStep
  split
  · intro x hx
    have hxs : x ≠ s := fun hh => hx (by rw [hh]; exact List.mem_cons_self _ _)
    have hxold : x ∉ st.completed := fun hh => hx (List.mem_cons_of_mem _ hh)
    constructor
    · show (if x = s then st.counter + 1 else st.seq x) = 0
      rw [if_neg hxs]
      exact (h x hxold).1
    · show (if x = s then _ else st.ord x) = 0
      rw [if_neg hxs]
      exact (h x hxold).2
  · exact h

theorem foldl_admit_untouched (ids : List ℤ) (toSeg : ℤ → ℤ) :
    ∀ (L : List ℤ) (st : OrdState),
      (∀ x, x ∉ st.completed → st.seq x = 0 ∧ st.ord x = 0) →
      ∀ x, x ∉ (L.foldl (admitStep ids toSeg) st).completed →
        (L.foldl (admitStep ids toSeg) st).seq x = 0 ∧
        (L.foldl (admitStep ids toSeg) st).ord x = 0 := by
  intro L
  induction L with
  | nil => intro st h; exact h
  | cons d L ih =>
    intro st h
    rw [List.foldl_cons]
    exact ih _ (admitStep_untouched ids toSeg st d h)

theorem seqLoop_untouched (ids : List ℤ) (toSeg : ℤ → ℤ) (num : ℤ → ℕ) (len : ℤ → ℚ) :
    ∀ (f : ℕ) (st : OrdState),
      (∀ x, x ∉ st.completed → st.seq x = 0 ∧ st.ord x = 0) →
      ∀ x, x ∉ (seqLoop ids toSeg num len f st).completed →
        (seqLoop ids toSeg num len f st).seq x = 0 ∧
        (seqLoop ids toSeg num len f st).ord x = 0 := by
  intro f
  induction f with
  | zero => intro st h; exact h
  | succ f ih =>
    intro st h
    have hiter := foldl_admit_untouched ids toSeg
      (sortBy (leDescKey num len) (frontierOf ids toSeg st)) st h
    rw [seqLoop_succ]
    by_cases hb : (ids.all fun s => decide (1 ≤ (seqIter ids toSeg num len st).seq s)) = true
    · rw [if_pos hb]
      exact hiter
    · rw [if_neg hb]
      exact ih _ hiter

/-- When the ordering passes return at all, they return with an empty
diagnostics list (the source never appends to `self.errors` in lines
185-204 / 280-325), and every segment the loop never admitted keeps
`sequence = 0` and `stream_order = 0`. -/
theorem buildOrdering_silent (ids : List ℤ) (toSeg : ℤ → ℤ) (glen : ℤ → ℚ) (e : ℤ)
    (trav : TravState) (st : OrdState) (ds : List ConnDiag)
    (hb : buildOrdering ids toSeg glen e = some (trav, st, ds)) :
    ds = [] ∧ ∀ s, s ∉ st.completed → st.seq s = 0 ∧ st.ord s = 0 := by
  simp only [buildOrdering] at hb
  by_cases h1 : headwaterOf ids toSeg = []
  · rw [if_pos h1] at hb
    cases hb
  · rw [if_neg h1] at hb
    by_cases h2 : (ids.map (traversal ids toSeg glen e).num).foldr max 0 = 0
    · rw [if_pos h2] at hb
      cases hb
    · rw [if_neg h2] at hb
      rw [Option.some.injEq, Prod.mk.injEq, Prod.mk.injEq] at hb
      obtain ⟨_, hst, hds⟩ := hb
      refine ⟨hds.symm, ?_⟩
      rw [← hst]
      apply seqLoop_untouched
      intro x hx
      constructor
      · exact initAssign_not_mem _ 0 (fun _ => 0) x hx
      · show (if x ∈ headwaterOf ids toSeg then 1 else 0) = 0
        rw [if_neg (fun hh => hx ((sortBy_perm _ _).mem_iff.mpr hh))]

/-! ## Claim theorems for the traversal and sequencer -/

/-- C1: after construction of a network whose connectivity produced a clean
topology (single downstream map into the index or the sentinel, acyclic,
duplicate-free index), the `sequence` column takes values in `1..N`,
injectively and surjectively (a permutation of `1..N`), and every segment's
sequence value strictly exceeds those of all its upstream segments. -/
theorem C1_sequence_topological_permutation (ids : List ℤ) (toSeg : ℤ → ℤ)
    (glen : ℤ → ℚ) (e : ℤ) (h : NetOK ids toSeg e) :
    ∃ trav st ds, buildOrdering ids toSeg glen e = some (trav, st, ds) ∧
      (∀ s ∈ ids, 1 ≤ st.seq s ∧ st.seq s ≤ ids.length) ∧
      (∀ s ∈ ids, ∀ t ∈ ids, st.seq s = st.seq t → s = t) ∧
      (∀ k : ℕ, 1 ≤ k → k ≤ ids.length → ∃ s ∈ ids, st.seq s = k) ∧
      (∀ s ∈ ids, ∀ u ∈ upsOf ids toSeg s, st.seq u < st.seq s) := by
  obtain ⟨st, heq, ⟨j, hj⟩, hcompl, hcount⟩ := buildOrdering_spec h glen
  refine ⟨_, st, [], heq, ?_, ?_, ?_, ?_⟩
  · intro s hs
    have hsc := hcompl s hs
    refine ⟨(hj.mem_iff s hs).mp hsc, ?_⟩
    rw [← hcount]
    exact hj.seq_le s hsc
  · intro s hs t ht heq2
    exact hj.inj s (hcompl s hs) t (hcompl t ht) heq2
  · have hS : ids.toFinset.card = ids.length := List.toFinset_card_of_nodup h.nodup
    have hinjOn : Set.InjOn st.seq (ids.toFinset : Set ℤ) := by
      intro a ha b hb hab
      exact hj.inj a (hcompl a (List.mem_toFinset.mp ha))
        b (hcompl b (List.mem_toFinset.mp hb)) hab
    have hsub : ids.toFinset.image st.seq ⊆ Finset.Icc 1 ids.length := by
      intro x hx
      obtain ⟨a, ha, hax⟩ := Finset.mem_image.mp hx
      have ha2 := List.mem_toFinset.mp ha
      have hc := hcompl a ha2
      refine Finset.mem_Icc.mpr ⟨?_, ?_⟩
      · rw [← hax]
        exact (hj.mem_iff a ha2).mp hc
      · rw [← hax, ← hcount]
        exact hj.seq_le a hc
    have hcard : (ids.toFinset.image st.seq).card = ids.length := by
      rw [Finset.card_image_of_injOn hinjOn, hS]
    have hicc : (Finset.Icc 1 ids.length).card = ids.length := by
      rw [Nat.card_Icc]
      omega
    have heqset : ids.toFinset.image st.seq = Finset.Icc 1 ids.length :=
      Finset.eq_of_subset_of_card_le hsub (le_of_eq (by rw [hcard, hicc]))
    intro k hk1 hk2
    have hk : k ∈ Finset.Icc 1 ids.length := Finset.mem_Icc.mpr ⟨hk1, hk2⟩
    rw [← heqset] at hk
    obtain ⟨a, ha, hax⟩ := Finset.mem_image.mp hk
    exact ⟨a, List.mem_toFinset.mp ha, hax⟩
  · intro s hs u hu
    rcases mem_upsOf.mp hu with ⟨hui, hut⟩
    exact (hj.topo s (hcompl s hs) u hui hut).2

/-- C5: every segment sequenced in the main loop (equivalently every
non-headwater segment) gets stream order equal to the maximum stream order
of its upstream segments when exactly one of them attains that maximum, and
the maximum plus one when two or more attain it. -/
theorem C5_stream_order_strahler (ids : List ℤ) (toSeg : ℤ → ℤ)
    (glen : ℤ → ℚ) (e : ℤ) (h : NetOK ids toSeg e) :
    ∃ trav st ds, buildOrdering ids toSeg glen e = some (trav, st, ds) ∧
      ∀ s ∈ ids, upsOf ids toSeg s ≠ [] →
        ((((upsOf ids toSeg s).map st.ord).count
            (((upsOf ids toSeg s).map st.ord).foldr max 0) = 1 →
          st.ord s = ((upsOf ids toSeg s).map st.ord).foldr max 0) ∧
        (1 < ((upsOf ids toSeg s).map st.ord).count
            (((upsOf ids toSeg s).map st.ord).foldr max 0) →
          st.ord s = ((upsOf ids toSeg s).map st.ord).foldr max 0 + 1)) := by
  obtain ⟨st, heq, ⟨j, hj⟩, hcompl, _⟩ := buildOrdering_spec h glen
  refine ⟨_, st, [], heq, ?_⟩
  intro s hs hups
  have hord := hj.ordUp s (hcompl s hs) hups
  simp only [strahlerStep] at hord
  constructor
  · intro hc1
    rw [hord, if_neg (by omega)]
  · intro hc2
    rw [hord, if_pos hc2]

/-- C7 (amended): every headwater gets stream order 1, and the hop count
`num_to_outlet` equals 1 exactly at the outlets (not at headwaters: a
headwater's `num_to_outlet` is its full hop count to its outlet). -/
theorem C7_headwater_order_and_outlet_hops (ids : List ℤ) (toSeg : ℤ → ℤ)
    (glen : ℤ → ℚ) (e : ℤ) (h : NetOK ids toSeg e) :
    ∃ trav st ds, buildOrdering ids toSeg glen e = some (trav, st, ds) ∧
      (∀ s ∈ ids, upsOf ids toSeg s = [] → st.ord s = 1) ∧
      (∀ o ∈ ids, toSeg o = e → trav.num o = 1) := by
  obtain ⟨st, heq, ⟨j, hj⟩, hcompl, _⟩ := buildOrdering_spec h glen
  refine ⟨_, st, [], heq, ?_, ?_⟩
  · intro s hs hups
    exact hj.ordHw s (hcompl s hs) hups
  · intro o ho hoe
    rw [traversal_num h glen o ho, h.dist_outlet ho hoe]

/-- C8 (amended): when the sequencer makes no progress while segments remain
unsequenced, construction does not loop forever (the loop is bounded by the
maximal `num_to_outlet`), but no structural error is surfaced: whenever the
ordering passes return a result, its diagnostics list is empty and every
never-admitted segment keeps `sequence = 0` and `stream_order = 0`. -/
theorem C8_stall_terminates_silently (ids : List ℤ) (toSeg : ℤ → ℤ) (glen : ℤ → ℚ)
    (e : ℤ) (r : TravState × OrdState × List ConnDiag)
    (hb : buildOrdering ids toSeg glen e = some r) :
    r.2.2 = [] ∧ ∀ s, s ∉ r.2.1.completed → r.2.1.seq s = 0 ∧ r.2.1.ord s = 0 :=
  buildOrdering_silent ids toSeg glen e r.1 r.2.1 r.2.2 hb

/-- C8, counterexample to the claim as stated: on the network
`1 → END, 2 → 3, 3 → 2` (a two-segment cycle beside a valid outlet) the
sequencer stalls after sequencing segment 1, yet construction returns
normally: segments 2 and 3 keep `sequence = 0` and the passes record no
diagnostics, instead of surfacing a structural error. -/
theorem C8_counterexample :
    (buildOrdering [1, 2, 3] (fun s => if s = 1 then 0 else if s = 2 then 3 else 2)
        (fun _ => 1) 0).map
      (fun r => (r.2.1.seq 2, r.2.1.seq 3, r.2.2.length)) = some (0, 0, 0) := by
  decide

theorem C8_witness :
    ((buildOrdering [1, 2, 3] (fun s => if s = 1 then 0 else if s = 2 then 3 else 2)
        (fun _ => 1) 0).get (by decide)).2.2 = [] ∧
    ((buildOrdering [1, 2, 3] (fun s => if s = 1 then 0 else if s = 2 then 3 else 2)
        (fun _ => 1) 0).get (by decide)).2.1.seq 2 = 0 := by
  have h := C8_stall_terminates_silently [1, 2, 3]
    (fun s => if s = 1 then 0 else if s = 2 then 3 else 2) (fun _ => 1) 0
    ((buildOrdering [1, 2, 3] (fun s => if s = 1 then 0 else if s = 2 then 3 else 2)
      (fun _ => 1) 0).get (by decide))
    (Option.some_get (by decide)).symm
  exact ⟨h.1, (h.2 (2 : ℤ) (by decide)).1⟩

theorem C1_witness :
    (buildOrdering [1, 2, 3] (fun s => if s = 3 then 0 else 3)
      (fun _ => 1) 0).isSome = true := by
  obtain ⟨trav, st, ds, heq, _⟩ :=
    C1_sequence_topological_permutation [1, 2, 3] (fun s => if s = 3 then 0 else 3)
      (fun _ => 1) 0 ⟨by decide, by decide, by decide, by decide, by decide⟩
  rw [heq]
  rfl

theorem C5_witness :
    (buildOrdering [1, 2, 4] (fun s => if s = 4 then 0 else 4)
      (fun _ => 1) 0).isSome = true := by
  obtain ⟨trav, st, ds, heq, _⟩ :=
    C5_stream_order_strahler [1, 2, 4] (fun s => if s = 4 then 0 else 4)
      (fun _ => 1) 0 ⟨by decide, by decide, by decide, by decide, by decide⟩
  rw [heq]
  rfl

theorem C7_witness :
    (buildOrdering [5, 6] (fun s => if s = 5 then 6 else 0)
      (fun _ => 1) 0).isSome = true := by
  obtain ⟨trav, st, ds, heq, _⟩ :=
    C7_headwater_order_and_outlet_hops [5, 6] (fun s => if s = 5 then 6 else 0)
      (fun _ => 1) 0 ⟨by decide, by decide, by decide, by decide, by decide⟩
  rw [heq]
  rfl

/-- C7, counterexample to the claim as stated: on the two-segment chain
`1 → 2 → END`, segment 1 is a headwater (no upstream segments) but its
`num_to_outlet` is 2, not 1 (outlets, not headwaters, have
`num_to_outlet = 1`). -/
theorem C7_counterexample :
    upsOf [1, 2] (fun s => if s = 1 then 2 else 0) 1 = [] ∧
    (buildOrdering [1, 2] (fun s => if s = 1 then 2 else 0) (fun _ => 1) 0).map
      (fun r => r.1.num 1) = some 2 := by
  decide

/-! ## Correctness of the accumulation fold -/

/-- The processing-order condition under which the left-to-right
accumulation fold is correct: relative to the already-processed set `done`,
each list element's upstream segments all lie in `done`, and the element
itself is new.  This is what ascending-`sequence` order guarantees. -/
def UpsOK (ids : List ℤ) (toSeg : ℤ → ℤ) : List ℤ → List ℤ → Prop
  | _, [] => True
  | done, s :: L =>
    (∀ u ∈ upsOf ids toSeg s, u ∈ done) ∧ s ∉ done ∧ UpsOK ids toSeg (s :: done) L

theorem accumStep_ne (ids : List ℤ) (toSeg : ℤ → ℤ) (acc : ℤ → ℚ) (s : ℤ) :
    ∀ t, t ≠ s → accumStep ids toSeg acc s t = acc t := by
  intro t hts
  unfold accumStep
  split
  · show (if t = s then _ else acc t) = acc t
    rw [if_neg hts]
  · rfl

theorem accumStep_self (ids : List ℤ) (toSeg : ℤ → ℤ) (acc : ℤ → ℚ) (s : ℤ) :
    accumStep ids toSeg acc s s = acc s + ((upsOf ids toSeg s).map acc).sum := by
  unfold accumStep
  split
  · show (if s = s then acc s + _ else acc s) = _
    rw [if_pos rfl]
  · next hnil =>
    rw [not_not.mp hnil]
    simp

theorem accum_fold_spec (ids : List ℤ) (toSeg : ℤ → ℤ) (vals : ℤ → ℚ) :
    ∀ (L done : List ℤ) (acc : ℤ → ℚ),
      (∀ t ∈ done, acc t = vals t + ((upsOf ids toSeg t).map acc).sum ∧
        ∀ u ∈ upsOf ids toSeg t, u ∈ done) →
      (∀ t, t ∉ done → acc t = vals t) →
      UpsOK ids toSeg done L →
      (∀ t, (t ∈ done ∨ t ∈ L) →
        (L.foldl (accumStep ids toSeg) acc) t =
          vals t + ((upsOf ids toSeg t).map (L.foldl (accumStep ids toSeg) acc)).sum ∧
        ∀ u ∈ upsOf ids toSeg t, (u ∈ done ∨ u ∈ L)) ∧
      (∀ t, ¬ (t ∈ done ∨ t ∈ L) → (L.foldl (accumStep ids toSeg) acc) t = vals t) := by
  intro L
  induction L with
  | nil =>
    intro done acc hA hB _
    simp only [List.foldl_nil]
    constructor
    · intro t ht
      rcases ht with ht | ht
      · exact ⟨(hA t ht).1, fun u hu => Or.inl ((hA t ht).2 u hu)⟩
      · cases ht
    · intro t ht
      exact hB t (fun hh => ht (Or.inl hh))
  | cons s L ih =>
    intro done acc hA hB hOK
    obtain ⟨hups_done, hs_done, hOK2⟩ := hOK
    rw [List.foldl_cons]
    have hA2 : ∀ t ∈ s :: done,
        accumStep ids toSeg acc s t =
          vals t + ((upsOf ids toSeg t).map (accumStep ids toSeg acc s)).sum ∧
        ∀ u ∈ upsOf ids toSeg t, u ∈ s :: done := by
      intro t ht
      rcases List.mem_cons.mp ht with rfl | htd
      · constructor
        · rw [accumStep_self]
          have hmap : (upsOf ids toSeg t).map (accumStep ids toSeg acc t) =
              (upsOf ids toSeg t).map acc := by
            refine List.map_congr_left ?_
            intro u hu
            have hut : u ≠ t := fun hh => hs_done (hh ▸ hups_done u hu)
            exact accumStep_ne ids toSeg acc t u hut
          rw [hmap, hB t hs_done]
        · intro u hu
          exact List.mem_cons_of_mem _ (hups_done u hu)
      · have hts : t ≠ s := fun hh => hs_done (hh ▸ htd)
        constructor
        · rw [accumStep_ne ids toSeg acc s t hts]
          have hmap : (upsOf ids toSeg t).map (accumStep ids toSeg acc s) =
              (upsOf ids toSeg t).map acc := by
            refine List.map_congr_left ?_
            intro u hu
            have hud : u ∈ done := (hA t htd).2 u hu
            have hus : u ≠ s := fun hh => hs_done (hh ▸ hud)
            exact accumStep_ne ids toSeg acc s u hus
          rw [hmap]
          exact (hA t htd).1
        · intro u hu
          exact List.mem_cons_of_mem _ ((hA t htd).2 u hu)
    have hB2 : ∀ t, t ∉ s :: done → accumStep ids toSeg acc s t = vals t := by
      intro t ht
      have hts : t ≠ s := fun hh => ht (hh ▸ List.mem_cons_self s done)
      have htd : t ∉ done := fun hh => ht (List.mem_cons_of_mem _ hh)
      rw [accumStep_ne ids toSeg acc s t hts]
      exact hB t htd
    have hmain := ih (s :: done) (accumStep ids toSeg acc s) hA2 hB2 hOK2
    constructor
    · intro t ht
      have ht2 : t ∈ s :: done ∨ t ∈ L := by
        rcases ht with ht | ht
        · exact Or.inl (List.mem_cons_of_mem _ ht)
        · rcases List.mem_cons.mp ht with rfl | htL
          · exact Or.inl (List.mem_cons_self _ _)
          · exact Or.inr htL
      obtain ⟨heq2, hups2⟩ := hmain.1 t ht2
      refine ⟨heq2, ?_⟩
      intro u hu
      rcases hups2 u hu with hu2 | hu2
      · rcases List.mem_cons.mp hu2 with rfl | hu3
        · exact Or.inr (List.mem_cons_self _ _)
        · exact Or.inl hu3
      · exact Or.inr (List.mem_cons_of_mem _ hu2)
    · intro t ht
      refine hmain.2 t ?_
      intro hcon
      rcases hcon with hcon | hcon
      · rcases List.mem_cons.mp hcon with rfl | hcon2
        · exact ht (Or.inr (List.mem_cons_self _ _))
        · exact ht (Or.inl hcon2)
      · exact ht (Or.inr (List.mem_cons_of_mem _ hcon))

theorem upsOK_of_sorted (ids : List ℤ) (toSeg : ℤ → ℤ) (seqOf : ℤ → ℕ) :
    ∀ (L done : List ℤ),
      L.Pairwise (fun a b => (decide (seqOf a ≤ seqOf b)) = true) →
      L.Nodup →
      (∀ s ∈ L, s ∉ done) →
      (∀ s ∈ L, ∀ u ∈ upsOf ids toSeg s, u ∈ done ∨ u ∈ L) →
      (∀ s ∈ L, ∀ u ∈ upsOf ids toSeg s, seqOf u < seqOf s) →
      UpsOK ids toSeg done L := by
  intro L
  induction L with
  | nil => intro done _ _ _ _ _; trivial
  | cons s L ih =>
    intro done hpw hnd hdisj hclosed hstrict
    obtain ⟨hhead, hpw2⟩ := List.pairwise_cons.mp hpw
    obtain ⟨hsL, hnd2⟩ := List.nodup_cons.mp hnd
    refine ⟨?_, hdisj s (List.mem_cons_self s L), ?_⟩
    · intro u hu
      rcases hclosed s (List.mem_cons_self s L) u hu with hd | hl
      · exact hd
      · exfalso
        have hlt := hstrict s (List.mem_cons_self s L) u hu
        rcases List.mem_cons.mp hl with rfl | hl2
        · omega
        · have hle := of_decide_eq_true (hhead u hl2)
          omega
    · refine ih (s :: done) hpw2 hnd2 ?_ ?_ ?_
      · intro t htL
        intro hcon
        rcases List.mem_cons.mp hcon with rfl | hcon2
        · exact hsL htL
        · exact hdisj t (List.mem_cons_of_mem _ htL) hcon2
      · intro t htL u hu
        rcases hclosed t (List.mem_cons_of_mem _ htL) u hu with hd | hl
        · exact Or.inl (List.mem_cons_of_mem _ hd)
        · rcases List.mem_cons.mp hl with rfl | hl2
          · exact Or.inl (List.mem_cons_self _ _)
          · exact Or.inr hl2
      · intro t htL u hu
        exact hstrict t (List.mem_cons_of_mem _ htL) u hu

theorem accumBody_spec (ids : List ℤ) (toSeg : ℤ → ℤ) (seqOf : ℤ → ℕ) (vals : ℤ → ℚ)
    (hnd : ids.Nodup)
    (hstrict : ∀ t ∈ ids, ∀ u ∈ ids, toSeg u = t → seqOf u < seqOf t) :
    ∀ s ∈ ids, accumBody ids toSeg seqOf vals s =
      vals s + ((upsOf ids toSeg s).map (accumBody ids toSeg seqOf vals)).sum := by
  intro s hs
  have hperm := sortBy_perm (fun a b => decide (seqOf a ≤ seqOf b)) ids
  have hpw := @sortBy_pairwise ℤ (fun a b => decide (seqOf a ≤ seqOf b))
    (fun a b => by
      rcases Nat.le_total (seqOf a) (seqOf b) with h | h
      · exact Or.inl (decide_eq_true h)
      · exact Or.inr (decide_eq_true h))
    (fun a b c hab hbc =>
      decide_eq_true (le_trans (of_decide_eq_true hab) (of_decide_eq_true hbc)))
    ids
  have hOK := upsOK_of_sorted ids toSeg seqOf
    (sortBy (fun a b => decide (seqOf a ≤ seqOf b)) ids) [] hpw
    (hperm.nodup_iff.mpr hnd)
    (fun t _ => List.not_mem_nil t)
    (fun t _ u hu =>
      Or.inr (hperm.mem_iff.mpr (mem_upsOf.mp hu).1))
    (fun t ht u hu =>
      hstrict t (hperm.mem_iff.mp ht) u (mem_upsOf.mp hu).1 (mem_upsOf.mp hu).2)
  have hmain := (accum_fold_spec ids toSeg vals
    (sortBy (fun a b => decide (seqOf a ≤ seqOf b)) ids) [] vals
    (fun t ht => absurd ht (List.not_mem_nil t))
    (fun t _ => rfl) hOK).1 s (Or.inr (hperm.mem_iff.mpr hs))
  exact hmain.1

theorem zip_self_all (l : List ℤ) :
    ((l.zip l).all fun p => decide (p.1 = p.2)) = true := by
  induction l with
  | nil => rfl
  | cons a l ih => simpa using ih

theorem list_eq_iff_len_zip (v w : List ℤ) :
    v = w ↔ (v.length = w.length ∧
      ((v.zip w).all fun p => decide (p.1 = p.2)) = true) := by
  constructor
  · rintro rfl
    exact ⟨rfl, zip_self_all v⟩
  · intro h
    obtain ⟨hlen, hall⟩ := h
    induction v generalizing w with
    | nil =>
      cases w with
      | nil => rfl
      | cons b t => cases hlen
    | cons a v ih =>
      cases w with
      | nil => cases hlen
      | cons b t =>
        simp only [List.zip_cons_cons, List.all_cons, Bool.and_eq_true,
          decide_eq_true_eq] at hall
        rw [hall.1, ih t (by simpa using hlen) hall.2]

/-! ## Claim theorems for the accumulation engine -/

/-- C3: when the index is duplicate-free and the `sequence` column is a
strict topological order (strictly larger downstream — what construction
guarantees, claim C1), `accumulate_values` on a values series with exactly
the segment index succeeds, returns a series with the same index, and every
returned value equals the segment's own input value plus the sum of the
returned values of its immediate upstream segments. -/
theorem C3_accumulate_values (ids : List ℤ) (toSeg : ℤ → ℤ) (seqOf : ℤ → ℕ)
    (vals : ℤ → ℚ) (hnd : ids.Nodup)
    (hstrict : ∀ t ∈ ids, ∀ u ∈ ids, toSeg u = t → seqOf u < seqOf t) :
    accumulate_values ids toSeg seqOf ids vals =
      some (ids, accumBody ids toSeg seqOf vals) ∧
    ∀ s ∈ ids, accumBody ids toSeg seqOf vals s =
      vals s + ((upsOf ids toSeg s).map (accumBody ids toSeg seqOf vals)).sum := by
  constructor
  · unfold accumulate_values
    rw [if_neg (fun hh => hh rfl), if_neg (fun hh => hh (zip_self_all ids))]
  · exact accumBody_spec ids toSeg seqOf vals hnd hstrict

theorem C3_witness :
    accumBody [1, 2, 3] (fun s => if s = 3 then 0 else 3)
        (fun s => if s = 3 then 3 else if s = 2 then 2 else 1) (fun _ => 1) 3 =
      (fun _ => (1 : ℚ)) 3 +
        ((upsOf [1, 2, 3] (fun s => if s = 3 then 0 else 3) 3).map
          (accumBody [1, 2, 3] (fun s => if s = 3 then 0 else 3)
            (fun s => if s = 3 then 3 else if s = 2 then 2 else 1) (fun _ => 1))).sum :=
  (C3_accumulate_values [1, 2, 3] (fun s => if s = 3 then 0 else 3)
    (fun s => if s = 3 then 3 else if s = 2 then 2 else 1) (fun _ => 1)
    (by decide) (by decide)).2 3 (by decide)

/-- C4 (amended): `accumulate_values` raises its key-mismatch `ValueError`
exactly when the values index differs from the segment index as an ordered
sequence (different length, or some positional pair differing) — not merely
when the key sets differ: a values series whose index is a permutation of
the segment index in a different order is also rejected. -/
theorem C4_index_check_is_ordered (ids : List ℤ) (toSeg : ℤ → ℤ) (seqOf : ℤ → ℕ)
    (vidx : List ℤ) (vals : ℤ → ℚ) :
    accumulate_values ids toSeg seqOf vidx vals = none ↔ vidx ≠ ids := by
  unfold accumulate_values
  rcases eq_or_ne vidx ids with rfl | hne
  · rw [if_neg (fun hh => hh rfl), if_neg (fun hh => hh (zip_self_all vidx))]
    simp
  · by_cases h1 : vidx.length ≠ ids.length
    · rw [if_pos h1]
      simp [hne]
    · have hlen : vidx.length = ids.length := not_not.mp h1
      have hall : ¬ ((vidx.zip ids).all fun p => decide (p.1 = p.2)) = true :=
        fun hh => hne ((list_eq_iff_len_zip _ _).mpr ⟨hlen, hh⟩)
      rw [if_neg h1, if_pos hall]
      simp [hne]

/-- C4, counterexample to the claim as stated: a values series whose index
`[2, 1]` is the same key set as the segment index `[1, 2]` but in a
different order is rejected (the source compares the indexes positionally),
contradicting "for every input whose key set does equal the segment ids the
call succeeds". -/
theorem C4_counterexample :
    accumulate_values [1, 2] (fun _ => 0) (fun _ => 0) [2, 1] (fun _ => 0) = none ∧
    ([2, 1] : List ℤ).toFinset = ([1, 2] : List ℤ).toFinset := by
  constructor
  · rfl
  · decide

/-! ## Claim theorem for the connectivity resolution -/

/-- C2: for a segment scanned by the connectivity pass, if the candidate
scan found exactly one downstream match it is recorded as `to_segnum`; if it
found none, `to_segnum` stays `END_SEGNUM`; and if it found more than one,
the more-than-one-downstream error naming all the candidates is emitted and
the first match encountered is still recorded. -/
theorem C2_downstream_resolution (s1 e : ℤ) (g1 : List Coord)
    (cands : List (ℤ × List Coord)) :
    (∀ t, (scanCandidates s1 g1 cands).toSegnums = [t] →
      (resolveToSegnum e s1 (scanCandidates s1 g1 cands)).1 = t) ∧
    ((scanCandidates s1 g1 cands).toSegnums = [] →
      (resolveToSegnum e s1 (scanCandidates s1 g1 cands)).1 = e) ∧
    (∀ t ts, (scanCandidates s1 g1 cands).toSegnums = t :: ts → ts ≠ [] →
      (resolveToSegnum e s1 (scanCandidates s1 g1 cands)).1 = t ∧
        ConnDiag.multiDownstream s1 (scanCandidates s1 g1 cands).toSegnums ∈
          (resolveToSegnum e s1 (scanCandidates s1 g1 cands)).2) := by
  rcases hacc : scanCandidates s1 g1 cands with ⟨ts, errs, warns⟩
  refine ⟨?_, ?_, ?_⟩
  · intro t ht
    have ht2 : ts = [t] := ht
    subst ht2
    rfl
  · intro ht
    have ht2 : ts = [] := ht
    subst ht2
    rfl
  · intro t ts2 ht hts2
    have ht2 : ts = t :: ts2 := ht
    subst ht2
    have hlen : 1 < (t :: ts2).length := by
      cases ts2 with
      | nil => exact absurd rfl hts2
      | cons b l => simp
    constructor
    · rfl
    · show ConnDiag.multiDownstream s1 (t :: ts2) ∈
        (if 1 < (t :: ts2).length then
          errs ++ [ConnDiag.multiDownstream s1 (t :: ts2)] else errs)
      rw [if_pos hlen]
      exact List.mem_append_right _ (List.mem_cons_self _ _)

theorem C2_witness :
    (resolveToSegnum 0 5 (scanCandidates 5 [(0, 0, 0), (1, 1, 0)]
      [(5, [(9, 9, 0), (9, 8, 0)]), (7, [(1, 1, 0), (2, 2, 0)]),
        (8, [(1, 1, 0), (3, 3, 0)])])).1 = 7 ∧
    ConnDiag.multiDownstream 5 (scanCandidates 5 [(0, 0, 0), (1, 1, 0)]
      [(5, [(9, 9, 0), (9, 8, 0)]), (7, [(1, 1, 0), (2, 2, 0)]),
        (8, [(1, 1, 0), (3, 3, 0)])]).toSegnums ∈
      (resolveToSegnum 0 5 (scanCandidates 5 [(0, 0, 0), (1, 1, 0)]
        [(5, [(9, 9, 0), (9, 8, 0)]), (7, [(1, 1, 0), (2, 2, 0)]),
          (8, [(1, 1, 0), (3, 3, 0)])])).2 :=
  (C2_downstream_resolution 5 0 [(0, 0, 0), (1, 1, 0)]
    [(5, [(9, 9, 0), (9, 8, 0)]), (7, [(1, 1, 0), (2, 2, 0)]),
      (8, [(1, 1, 0), (3, 3, 0)])]).2.2 7 [8] (by decide) (by decide)

/-! ## Call depth of the native recursion in `resurse_upstream` (claim C9) -/

/-- Test network: a single chain `1 ← 2 ← ... ← n` (segment `k+1` flows into
segment `k`, segment 1 is the outlet). -/
def chainIds (n : ℕ) : List ℤ := (List.range n).map fun (k : ℕ) => ((k : ℤ) + 1)

/-- Downstream map of the chain network: `s ↦ s - 1` (so segment 1 maps to
the sentinel 0). -/
def chainTo (s : ℤ) : ℤ := s - 1

theorem mem_chainIds {n : ℕ} {x : ℤ} : x ∈ chainIds n ↔ 1 ≤ x ∧ x ≤ (n : ℤ) := by
  simp only [chainIds, List.mem_map, List.mem_range]
  constructor
  · rintro ⟨k, hk, rfl⟩
    omega
  · rintro ⟨h1, h2⟩
    refine ⟨(x - 1).toNat, ?_, ?_⟩
    · omega
    · omega

theorem chainIds_nodup (n : ℕ) : (chainIds n).Nodup :=
  List.Nodup.map (fun a b hab => by omega) (List.nodup_range n)

theorem filter_eq_of_nodup (c : ℤ) :
    ∀ (l : List ℤ), l.Nodup →
      l.filter (fun u => decide (u = c)) = if c ∈ l then [c] else [] := by
  intro l
  induction l with
  | nil => intro _; simp
  | cons a l ih =>
    intro hnd
    rcases List.nodup_cons.mp hnd with ⟨haL, hnd2⟩
    by_cases hac : a = c
    · subst hac
      rw [List.filter_cons, if_pos (by simp), ih hnd2, if_neg haL,
        if_pos (List.mem_cons_self a l)]
    · rw [List.filter_cons, if_neg (by simp [hac]), ih hnd2]
      by_cases hcl : c ∈ l
      · rw [if_pos hcl, if_pos (List.mem_cons_of_mem a hcl)]
      · rw [if_neg hcl, if_neg ?_]
        intro hh
        rcases List.mem_cons.mp hh with hh2 | hh2
        · exact hac hh2.symm
        · exact hcl hh2

theorem chain_upsOf (n : ℕ) (s : ℤ) :
    upsOf (chainIds n) chainTo s = if s + 1 ∈ chainIds n then [s + 1] else [] := by
  unfold upsOf chainTo
  have hcong : ∀ u ∈ chainIds n, (decide (u - 1 = s)) = (decide (u = s + 1)) := by
    intro u _
    by_cases hu : u = s + 1
    · subst hu
      simp
    · have h2 : ¬ (u - 1 = s) := fun hh => hu (by omega)
      simp [h2, hu]
  rw [List.filter_congr hcong]
  exact filter_eq_of_nodup (s + 1) (chainIds n) (chainIds_nodup n)

theorem chain_depth : ∀ (f n k : ℕ), 1 ≤ k → k ≤ n → n - k < f →
    resurseDepth (chainIds n) chainTo f ((k : ℕ) : ℤ) = n + 1 - k := by
  intro f
  induction f with
  | zero =>
    intro n k _ _ hf
    exact absurd hf (Nat.not_lt_zero _)
  | succ f ih =>
    intro n k hk1 hkn hf
    show 1 + ((upsOf (chainIds n) chainTo ((k : ℕ) : ℤ)).map
      (resurseDepth (chainIds n) chainTo f)).foldr max 0 = n + 1 - k
    rw [chain_upsOf]
    by_cases hkn2 : k = n
    · subst hkn2
      rw [if_neg (fun hh => by have := mem_chainIds.mp hh; omega)]
      simp only [List.map_nil, List.foldr_nil]
      omega
    · have hlt : k < n := lt_of_le_of_ne hkn hkn2
      rw [if_pos (mem_chainIds.mpr (by constructor <;> omega))]
      have hih := ih n (k + 1) (by omega) (by omega) (by omega)
      simp only [List.map_cons, List.map_nil, List.foldr_cons, List.foldr_nil]
      rw [show ((k : ℕ) : ℤ) + 1 = (((k + 1 : ℕ) : ℕ) : ℤ) by push_cast; ring, hih]
      omega

/-- C9 (amended): the downstream-to-upstream traversal is *natively
recursive* (`resurse_upstream` calls itself once per upstream hop), so on a
linear chain of `n` segments the recursion started at the outlet nests `n`
calls deep — the call-stack consumption is proportional to the network
depth, not bounded as an explicit work-list algorithm would make it. -/
theorem C9_traversal_depth_linear (n f : ℕ) (h1 : 1 ≤ n) (hf : n ≤ f) :
    resurseDepth (chainIds n) chainTo f 1 = n := by
  have h := chain_depth f n 1 (le_refl 1) h1 (by omega)
  simpa using h

/-- C9, counterexample to the claim as stated: on a near-linear network of
1000 chained segments the recursion from the outlet nests exactly 1000
levels deep — call-stack depth proportional to the network depth, refuting
"completes without consuming call-stack depth proportional to the network
depth" (Python's default recursion limit is 1000). -/
theorem C9_counterexample :
    resurseDepth (chainIds 1000) chainTo 1000 1 = 1000 ∧
      (chainIds 1000).length = 1000 := by
  constructor
  · have h := chain_depth 1000 1000 1 (by omega) (by omega) (by omega)
    simpa using h
  · simp [chainIds]

theorem C9_witness : resurseDepth (chainIds 5) chainTo 5 1 = 5 :=
  C9_traversal_depth_linear 5 5 (by decide) (by decide)

/-! ## Claim theorems for the elevation adjuster -/

/-- C6: with positive planar runs, (i) a segment whose profile already meets
the minimum slope at every consecutive pair is returned unmodified with a
zero modification count, and (ii) on any successful scan, each output
elevation equals the stored elevation when the local slope (relative to the
already-adjusted upstream point) meets the minimum, and exactly
`upstream elevation - run * min_slope` when it falls short. -/
theorem C6_elevation_adjustment (ms z0 : ℚ) (steps : List (ℚ × ℚ))
    (hdx : ∀ p ∈ steps, 0 < p.1) :
    (compliant ms z0 steps → adjustZ ms z0 steps = some (steps.map Prod.snd, 0)) ∧
    (∀ zs m, adjustZ ms z0 steps = some (zs, m) →
      zs.length = steps.length ∧
      ∀ i, i < steps.length →
        ((((if i = 0 then z0 else zs.getD (i - 1) 0) - (steps.getD i (0, 0)).2) /
              (steps.getD i (0, 0)).1 < ms →
            zs.getD i 0 =
              (if i = 0 then z0 else zs.getD (i - 1) 0) -
                (steps.getD i (0, 0)).1 * ms) ∧
          (¬ (((if i = 0 then z0 else zs.getD (i - 1) 0) - (steps.getD i (0, 0)).2) /
              (steps.getD i (0, 0)).1 < ms) →
            zs.getD i 0 = (steps.getD i (0, 0)).2))) :=
  ⟨adjustZ_of_compliant ms steps z0 hdx,
    fun zs m h => adjustZ_spec ms steps z0 zs m h⟩

theorem C6_witness :
    adjustZ (1 / 1000) 10 [(100, 999 / 100)] = some ([99 / 10], 1) ∧
    [(99 : ℚ) / 10].getD 0 0 =
      (if (0 : ℕ) = 0 then (10 : ℚ) else [(99 : ℚ) / 10].getD (0 - 1) 0) -
        ([((100 : ℚ), (999 : ℚ) / 100)].getD 0 (0, 0)).1 * (1 / 1000) := by
  have hadj : adjustZ (1 / 1000) 10 [(100, 999 / 100)] = some ([99 / 10], 1) := by
    norm_num [adjustZ]
  refine ⟨hadj, ?_⟩
  have hpos : ∀ p ∈ [((100 : ℚ), (999 : ℚ) / 100)], 0 < p.1 := by
    intro p hp
    rcases List.mem_cons.mp hp with rfl | hp2
    · norm_num
    · cases hp2
  exact (((C6_elevation_adjustment (1 / 1000) 10 [(100, 999 / 100)]
    hpos).2 [99 / 10] 1 hadj).2 0 (by norm_num)).1 (by norm_num)

/-- C10: the elevation scan is total exactly on segments whose consecutive
coordinates are pairwise distinct in 2-D projection: it fails (the embedded
`ZeroDivisionError`) iff some consecutive pair has zero planar run. -/
theorem C10_zero_run_fails (ms z0 : ℚ) (steps : List (ℚ × ℚ)) :
    adjustZ ms z0 steps = none ↔ ∃ p ∈ steps, p.1 = 0 :=
  adjustZ_none_iff ms steps z0
